import Mathlib

/-!
# codegraph — verification of the graph construction pipeline

A shallow embedding of the codegraph builder: the import/alias resolver
(`resolveImportPath`, `resolveViaAlias`), the call-confidence scorer
(`computeConfidence`), the two-pass graph builder (`pass1Db`, `pass2Edges`),
the watch-mode incremental updater (`updateFile`, `resolveImportSimple`) and
the class-hierarchy query (`getClassHierarchy`).  Pure JS functions become
Lean functions; the SQLite store becomes an explicit `DB` value with
insertion-ordered rows and `INSERT OR IGNORE` dedup; `fs.existsSync` becomes
an explicit filesystem predicate `String → Bool`; JS floats for confidences
become `ℚ` (all literals involved are decimal and compared only by equality
and order).
-/

namespace Codegraph

/-! ## 0. Character-list string primitives

`String.startsWith`, `endsWith`, `splitOn` and `drop` from the library are
compiled with well-founded recursion and do not reduce inside the kernel, so
the embedding uses structural equivalents over `String.data`. -/

/-- `s.startsWith pre`. -/
def strStartsWith (s pre : String) : Bool := pre.data.isPrefixOf s.data

/-- `s.endsWith post`. -/
def strEndsWith (s post : String) : Bool := post.data.isSuffixOf s.data

/-- `s.slice(n)` / `String.drop`. -/
def strDropLeft (s : String) (n : Nat) : String := ⟨s.data.drop n⟩

/-- Drop the last `n` characters. -/
def strDropRight (s : String) (n : Nat) : String :=
  ⟨s.data.take (s.data.length - n)⟩

/-- `split('/')` on character lists, accumulating the current segment. -/
def splitSlashAux : List Char → List Char → List (List Char)
  | [], cur => [cur.reverse]
  | c :: cs, cur =>
    if c = '/' then cur.reverse :: splitSlashAux cs []
    else splitSlashAux cs (c :: cur)

/-- `s.split('/')`. -/
def strSplitSlash (s : String) : List String :=
  (splitSlashAux s.data []).map String.mk

/-! ## 1. Path model (Node's `path` module, POSIX flavor)

Only the operations the builder uses: `dirname`, `resolve` against an
absolute base, `join`, `relative`.  Paths are plain strings; segment lists
normalize `"."` and `".."` the way `path.resolve` does on absolute paths. -/

/-- Split a path on slashes, discarding empty segments. -/
def splitSegs (s : String) : List String :=
  (strSplitSlash s).filter (fun x => x ≠ "")

/-- Normalize `"."` and `".."` segments; on an absolute path `".."` at the
root stays at the root, as in `path.resolve`. -/
def normSegs (segs : List String) : List String :=
  segs.foldl (fun acc seg =>
    if seg = "." then acc
    else if seg = ".." then acc.dropLast
    else acc ++ [seg]) []

/-- Render an absolute path from its segments. -/
def renderAbs (segs : List String) : String :=
  "/" ++ String.intercalate "/" segs

/-- `path.join`/`path.resolve` for an absolute `base` and a relative `rel`. -/
def pathJoin (base rel : String) : String :=
  renderAbs (normSegs (splitSegs base ++ splitSegs rel))

/-- `path.dirname`, on normalized inputs (absolute or workspace-relative). -/
def pathDirname (p : String) : String :=
  if strStartsWith p "/" then renderAbs (splitSegs p).dropLast
  else
    match (splitSegs p).dropLast with
    | [] => "."
    | segs => String.intercalate "/" segs

/-- Segment-level `path.relative`. -/
def relSegs : List String → List String → List String
  | a :: as, b :: bs =>
    if a = b then relSegs as bs
    else List.replicate (a :: as).length ".." ++ (b :: bs)
  | [], bs => bs
  | as, [] => List.replicate as.length ".."

/-- `path.relative from to` on normalized absolute paths. -/
def pathRelative (fromP toP : String) : String :=
  String.intercalate "/" (relSegs (splitSegs fromP) (splitSegs toP))

/-! ## 2. Extractor records (parser.js output consumed by the builder) -/

/-- One entry of `symbols.definitions`. -/
structure Definition where
  name : String
  kind : String
  line : Nat
  endLine : Option Nat
deriving DecidableEq, Repr

/-- One entry of `symbols.exports`. -/
structure ExportRec where
  name : String
  kind : String
  line : Nat
deriving DecidableEq, Repr

/-- One entry of `symbols.imports` (re-export statements included, flagged). -/
structure ImportRec where
  source : String
  names : List String
  line : Nat
  typeOnly : Bool
  reexport : Bool
  wildcardReexport : Bool
deriving DecidableEq, Repr

/-- One entry of `symbols.calls`. -/
structure CallRec where
  name : String
  line : Nat
  dynamic : Bool
deriving DecidableEq, Repr

/-- One entry of `symbols.classes`: each push carries either an `extends`
name or an `implements` name. -/
structure ClassRec where
  name : String
  extendsName : Option String
  implementsName : Option String
  line : Nat
deriving DecidableEq, Repr

/-- The per-file record produced by `extractSymbols` and consumed by
`buildGraph` and `updateFile`. -/
structure Symbols where
  definitions : List Definition
  exports : List ExportRec
  imports : List ImportRec
  calls : List CallRec
  classes : List ClassRec
deriving DecidableEq, Repr

/-! ## 3. Store model (SQLite `nodes`/`edges` tables of db.js) -/

/-- A row of `nodes`; `id` is assigned in insertion order. -/
structure Node where
  id : Nat
  name : String
  kind : String
  file : String
  line : Nat
  endLine : Option Nat
deriving DecidableEq, Repr

/-- A row of `edges`; `confidence` is a rational standing for the REAL
column, `dynamic` a Bool standing for the 0/1 INT column. -/
structure Edge where
  sourceId : Nat
  targetId : Nat
  kind : String
  confidence : ℚ
  dynamic : Bool
deriving DecidableEq, Repr

/-- The store: row lists in insertion (= rowid) order plus the AUTOINCREMENT
counter, which survives DELETE. -/
structure DB where
  nodes : List Node
  edges : List Edge
  nextId : Nat
deriving DecidableEq, Repr

def DB.empty : DB := ⟨[], [], 0⟩

/-- `INSERT OR IGNORE INTO nodes (name, kind, file, line, end_line)`:
ignored when a row with the same UNIQUE key `(name, kind, file, line)`
exists. -/
def insertNodeIG (db : DB) (name kind file : String) (line : Nat)
    (endLine : Option Nat) : DB :=
  if db.nodes.any (fun n =>
      n.name = name ∧ n.kind = kind ∧ n.file = file ∧ n.line = line) then db
  else
    ⟨db.nodes ++ [⟨db.nextId, name, kind, file, line, endLine⟩],
      db.edges, db.nextId + 1⟩

/-- `SELECT id FROM nodes WHERE name = ? AND kind = ? AND file = ? AND line = ?`
(`.get`: first matching row). -/
def getNodeId? (db : DB) (name kind file : String) (line : Nat) : Option Node :=
  db.nodes.find? (fun n =>
    n.name = name ∧ n.kind = kind ∧ n.file = file ∧ n.line = line)

/-- `INSERT INTO edges (source_id, target_id, kind, confidence, dynamic)`. -/
def insertEdge (db : DB) (e : Edge) : DB := ⟨db.nodes, db.edges ++ [e], db.nextId⟩

/-! ## 4. Import & alias resolver (part of the builder source) -/

/-- `loadPathAliases` result: `baseUrl` plus `paths` pattern→targets, every
path already made absolute. -/
structure Aliases where
  baseUrl : Option String
  paths : List (String × List String)
deriving DecidableEq, Repr

/-- `tsconfig`-less default: `{ baseUrl: null, paths: {} }`. -/
def Aliases.none : Aliases := ⟨Option.none, []⟩

/-- `s.replace(/\*$/, '')`. -/
def stripStar (s : String) : String :=
  if strEndsWith s "*" then strDropRight s 1 else s

/-- `s.replace(/\*$/, rest)`. -/
def replaceStar (s rest : String) : String :=
  if strEndsWith s "*" then strDropRight s 1 ++ rest else s

/-- Probe `candidate + ext` for each `ext` in order; first hit wins. -/
def firstExisting (fsx : String → Bool) (candidate : String)
    (exts : List String) : Option String :=
  exts.findSome? (fun ext =>
    if fsx (candidate ++ ext) then some (candidate ++ ext) else Option.none)

/-- Extension list probed by `resolveViaAlias`. -/
def aliasExts : List String :=
  ["", ".ts", ".tsx", ".js", ".jsx", "/index.ts", "/index.tsx", "/index.js"]

/-- `resolveViaAlias(importSource, aliases, rootDir)`: baseUrl probe first,
then each `paths` pattern whose literal part matches. -/
def resolveViaAlias (fsx : String → Bool) (importSource : String)
    (aliases : Aliases) : Option String :=
  let viaBase :=
    match aliases.baseUrl with
    | some b =>
      if ¬ strStartsWith importSource "." ∧ ¬ strStartsWith importSource "/" then
        firstExisting fsx (pathJoin b importSource) aliasExts
      else Option.none
    | Option.none => Option.none
  match viaBase with
  | some r => some r
  | Option.none =>
    aliases.paths.findSome? (fun pt =>
      let pre := stripStar pt.1
      if strStartsWith importSource pre then
        let rest := strDropLeft importSource pre.data.length
        pt.2.findSome? (fun target =>
          firstExisting fsx (replaceStar target rest) aliasExts)
      else Option.none)

/-- Extension list probed by `resolveImportPath` for relative imports
(part_003 line 97): note there is no `""` entry. -/
def resolveExts : List String :=
  [".ts", ".tsx", ".js", ".jsx", ".mjs", ".py",
   "/index.ts", "/index.tsx", "/index.js", "/__init__.py"]

/-- `resolveImportPath(fromFile, importSource, rootDir, aliases)` from the
builder (part_003 lines 81–105), translated clause by clause: alias attempt
for bare specifiers, the `.js`→`.ts`/`.tsx` ESM probe, the extension loop,
and the final (branch-insensitive) `path.relative` fallback. -/
def resolveImportPath (fsx : String → Bool) (fromFile importSource rootDir : String)
    (aliases : Aliases) : String :=
  if ¬ strStartsWith importSource "." then
    match resolveViaAlias fsx importSource aliases with
    | some aliasResolved => pathRelative rootDir aliasResolved
    | Option.none => importSource
  else
    let dir := pathDirname fromFile
    let resolved := pathJoin dir importSource
    if strEndsWith resolved ".js" ∧ fsx (strDropRight resolved 3 ++ ".ts") then
      pathRelative rootDir (strDropRight resolved 3 ++ ".ts")
    else if strEndsWith resolved ".js" ∧ fsx (strDropRight resolved 3 ++ ".tsx") then
      pathRelative rootDir (strDropRight resolved 3 ++ ".tsx")
    else
      match firstExisting fsx resolved resolveExts with
      | some candidate => pathRelative rootDir candidate
      | Option.none =>
        if fsx resolved then pathRelative rootDir resolved
        else pathRelative rootDir resolved

/-- `computeConfidence(callerFile, targetFile, importedFrom)` (part_003
lines 111–125); the JS falsy test on the two file strings is the
empty-string test, `importedFrom` may be `undefined`. -/
def computeConfidence (callerFile targetFile : String)
    (importedFrom : Option String) : ℚ :=
  if targetFile = "" ∨ callerFile = "" then mkRat 3 10
  else if callerFile = targetFile then 1
  else if importedFrom = some targetFile then 1
  else if pathDirname callerFile = pathDirname targetFile then mkRat 7 10
  else if pathDirname (pathDirname callerFile)
          = pathDirname (pathDirname targetFile) then mkRat 1 2
  else mkRat 3 10

/-! ## 5. Graph builder (buildGraph, part_003 lines 127–403)

The builder's ambient data — workspace root, filesystem, alias config and the
per-file symbol records of pass 1 (`fileSymbols`, in iteration order) — is a
context record.  Extraction itself (tree-sitter) is outside the embedding:
`fileSymbols` is the builder's input. -/

structure BuildCtx where
  rootDir : String
  fsx : String → Bool
  aliases : Aliases
  fileSymbols : List (String × Symbols)

/-- `fileSymbols.get(relPath)` (keys are unique in the JS `Map`). -/
def symbolsOf (ctx : BuildCtx) (relPath : String) : Option Symbols :=
  ctx.fileSymbols.lookup relPath

/-- The re-exports of one file: `symbols.imports.filter(imp => imp.reexport)`. -/
def reexportsOf (symbols : Symbols) : List ImportRec :=
  symbols.imports.filter (fun imp => imp.reexport)

/-- One entry of the builder's re-export map. -/
structure Reexport where
  source : String
  names : List String
  wildcardReexport : Bool
deriving DecidableEq, Repr

/-- The `reexportMap`: file → resolved re-export records, set only for files
with at least one re-export. -/
def reexportMap (ctx : BuildCtx) : List (String × List Reexport) :=
  ctx.fileSymbols.filterMap (fun fs =>
    let res := reexportsOf fs.2
    if res = [] then Option.none
    else some (fs.1, res.map (fun imp =>
      ⟨resolveImportPath ctx.fsx (pathJoin ctx.rootDir fs.1) imp.source
          ctx.rootDir ctx.aliases,
        imp.names, imp.wildcardReexport⟩)))

/-- `isBarrelFile(relPath)`: has re-exports, and at least as many of them as
own definitions. -/
def isBarrelFile (ctx : BuildCtx) (relPath : String) : Bool :=
  match symbolsOf ctx relPath with
  | Option.none => false
  | some symbols =>
    let res := reexportsOf symbols
    if res = [] then false else res.length ≥ symbols.definitions.length

/-- The `for (const re of reexports)` loop body of `resolveBarrelExport`;
`recurse` is the one-level-deeper `resolveBarrelExport` call. -/
def resolveBarrelLoop (ctx : BuildCtx)
    (recurse : String → String → List String → Option String × List String)
    (symbolName : String) : List Reexport → List String →
    Option String × List String
  | [], visited => (Option.none, visited)
  | re :: rest, visited =>
    if re.names ≠ [] ∧ ¬ re.wildcardReexport then
      if symbolName ∈ re.names then
        match symbolsOf ctx re.source with
        | some targetSymbols =>
          if targetSymbols.definitions.any (fun d => d.name = symbolName) then
            (some re.source, visited)
          else
            match recurse re.source symbolName visited with
            | (some deeper, v2) => (some deeper, v2)
            | (Option.none, v2) => (some re.source, v2)
        | Option.none => (some re.source, visited)
      else resolveBarrelLoop ctx recurse symbolName rest visited
    else
      match symbolsOf ctx re.source with
      | some targetSymbols =>
        if targetSymbols.definitions.any (fun d => d.name = symbolName) then
          (some re.source, visited)
        else
          match recurse re.source symbolName visited with
          | (some deeper, v2) => (some deeper, v2)
          | (Option.none, v2) => resolveBarrelLoop ctx recurse symbolName rest v2
      | Option.none => resolveBarrelLoop ctx recurse symbolName rest visited

/-- `resolveBarrelExport(barrelPath, symbolName, visited)`: the `visited` set
is shared across the whole recursion in JS, so it is threaded through and
returned.  `fuel` only bounds the nesting depth, which the growing `visited`
set bounds in JS; call sites pass `barrelFuel`, which is ample. -/
def resolveBarrelExport (ctx : BuildCtx) : Nat → String → String →
    List String → Option String × List String
  | 0, _, _, visited => (Option.none, visited)
  | f + 1, barrelPath, symbolName, visited =>
    if barrelPath ∈ visited then (Option.none, visited)
    else
      let visited2 := visited ++ [barrelPath]
      match (reexportMap ctx).lookup barrelPath with
      | Option.none => (Option.none, visited2)
      | some res =>
        resolveBarrelLoop ctx
          (fun b s v => resolveBarrelExport ctx f b s v) symbolName res visited2

/-- Ample fuel for `resolveBarrelExport`: nesting depth in JS is bounded by
the number of distinct barrel paths, itself bounded by the re-export entry
count. -/
def barrelFuel (ctx : BuildCtx) : Nat :=
  ctx.fileSymbols.length
    + (reexportMap ctx).foldl (fun n p => n + p.2.length) 0 + 2

/-- The node insertions done for one file: file node, definition nodes,
export nodes (identical lines in buildGraph pass 1 and updateFile). -/
def insertFileNodes (db : DB) (relPath : String) (symbols : Symbols) : DB :=
  let db1 := insertNodeIG db relPath "file" relPath 0 Option.none
  let db2 := symbols.definitions.foldl
    (fun acc d => insertNodeIG acc d.name d.kind relPath d.line d.endLine) db1
  symbols.exports.foldl
    (fun acc e => insertNodeIG acc e.name e.kind relPath e.line Option.none) db2

/-- Pass 1: parse every file and insert its nodes. -/
def pass1Db (ctx : BuildCtx) (db : DB) : DB :=
  ctx.fileSymbols.foldl (fun acc fs => insertFileNodes acc fs.1 fs.2) db

/-- `name.replace(/^\*\s+as\s+/, '')` for the one shape the extractor emits. -/
def stripStarAs (s : String) : String :=
  if strStartsWith s "* as " then strDropLeft s 5 else s

/-- The `importedNames` map of pass 2, as the insertion-ordered entry list of
the JS `Map` (later `set`s shadow earlier ones). -/
def importedNamesFor (ctx : BuildCtx) (relPath : String)
    (imps : List ImportRec) : List (String × String) :=
  imps.foldl (fun acc imp =>
    let resolvedPath := resolveImportPath ctx.fsx (pathJoin ctx.rootDir relPath)
      imp.source ctx.rootDir ctx.aliases
    imp.names.foldl (fun a2 n => a2 ++ [(stripStarAs n, resolvedPath)]) acc) []

/-- `Map.get`: the most recently set binding wins. -/
def mapGet (m : List (String × String)) (k : String) : Option String :=
  m.reverse.lookup k

/-- `SELECT id, file FROM nodes WHERE name = ? AND kind IN ('function',
'method', 'class', 'interface') AND file = ?`, in rowid order. -/
def searchKinds (db : DB) (name file : String) : List Node :=
  db.nodes.filter (fun n =>
    n.name = name
      ∧ (n.kind = "function" ∨ n.kind = "method" ∨ n.kind = "class"
          ∨ n.kind = "interface")
      ∧ n.file = file)

/-- The same query without the file constraint. -/
def searchKindsAll (db : DB) (name : String) : List Node :=
  db.nodes.filter (fun n =>
    n.name = name
      ∧ (n.kind = "function" ∨ n.kind = "method" ∨ n.kind = "class"
          ∨ n.kind = "interface"))

/-- `SELECT id, file FROM nodes WHERE name LIKE '%.'||? AND kind = 'method'`:
method nodes whose name ends in `"." ++ callName`. -/
def searchMethodSuffix (db : DB) (callName : String) : List Node :=
  db.nodes.filter (fun n =>
    strEndsWith n.name ("." ++ callName) ∧ n.kind = "method")

/-- The caller-attribution loop of pass 2: the last definition in iteration
order whose `line ≤ call.line` and whose node row is found; the file node
otherwise. -/
def callerFor (db : DB) (relPath : String) (defs : List Definition)
    (fileNode : Node) (callLine : Nat) : Node :=
  (defs.foldl (fun acc d =>
    if d.line ≤ callLine then
      match getNodeId? db d.name d.kind relPath d.line with
      | some row => some row
      | Option.none => acc
    else acc) Option.none).getD fileNode

/-- The target-resolution tiers of pass 2 (part_003 lines 322–350).  The JS
falsy test on the looked-up `importedFrom` string is modeled as the Option
test. -/
def callTargets (ctx : BuildCtx) (db : DB) (relPath : String)
    (importedFrom : Option String) (callName : String) : List Node :=
  let fallback :=
    let t2 := searchKinds db callName relPath
    if t2 ≠ [] then t2
    else
      let t3 := searchMethodSuffix db callName
      if t3 ≠ [] then t3
      else searchKindsAll db callName
  match importedFrom with
  | some impFile =>
    let t1 := searchKinds db callName impFile
    let t1b :=
      if t1 = [] ∧ isBarrelFile ctx impFile then
        match (resolveBarrelExport ctx (barrelFuel ctx) impFile callName []).1 with
        | some actual => searchKinds db callName actual
        | Option.none => t1
      else t1
    if t1b ≠ [] then t1b else fallback
  | Option.none => fallback

/-- The comparator `(a, b) => confB - confA`, as the total preorder
"descending confidence". -/
def confGE (relPath : String) (importedFrom : Option String)
    (a b : Node) : Prop :=
  computeConfidence relPath b.file importedFrom
    ≤ computeConfidence relPath a.file importedFrom

instance (relPath : String) (importedFrom : Option String) :
    DecidableRel (confGE relPath importedFrom) := fun a b =>
  inferInstanceAs (Decidable (computeConfidence relPath b.file importedFrom
    ≤ computeConfidence relPath a.file importedFrom))

/-- `if (targets.length > 1) targets.sort(byDescendingConfidence)`:
`Array.prototype.sort` is a stable sort by the comparator, modeled by a
stable insertion sort. -/
def rankTargets (relPath : String) (importedFrom : Option String)
    (targets : List Node) : List Node :=
  if targets.length > 1 then
    targets.insertionSort (confGE relPath importedFrom)
  else targets

/-- The `calls` edges inserted for one call record. -/
def callEdgesForCall (ctx : BuildCtx) (db : DB) (relPath : String)
    (importedNames : List (String × String)) (defs : List Definition)
    (fileNode : Node) (call : CallRec) : List Edge :=
  let caller := callerFor db relPath defs fileNode call.line
  let importedFrom := mapGet importedNames call.name
  let targets := callTargets ctx db relPath importedFrom call.name
  (rankTargets relPath importedFrom targets).filterMap (fun t =>
    if t.id ≠ caller.id then
      some ⟨caller.id, t.id, "calls",
        computeConfidence relPath t.file importedFrom, call.dynamic⟩
    else Option.none)

/-- The body of the barrel-edge loop `for (const name of imp.names)`
(part_003 lines 285–296): resolve the name through the barrel, dedup on the
resolved source, insert a 0.9-confidence indirect edge. -/
def barrelStep (ctx : BuildCtx) (db : DB) (fileNodeId : Nat)
    (edgeKind resolvedPath : String) (st : List String × List Edge)
    (name : String) : List String × List Edge :=
  match (resolveBarrelExport ctx (barrelFuel ctx) resolvedPath
      (stripStarAs name) []).1 with
  | some actualSource =>
    if actualSource ≠ resolvedPath ∧ actualSource ∉ st.1 then
      match getNodeId? db actualSource "file" actualSource 0 with
      | some actualRow =>
        (st.1 ++ [actualSource],
          st.2 ++ [⟨fileNodeId, actualRow.id,
            (if edgeKind = "imports-type" then "imports-type"
              else "imports"), mkRat 9 10, false⟩])
      | Option.none => (st.1 ++ [actualSource], st.2)
    else st
  | Option.none => st

/-- The `imports`/`imports-type`/`reexports` edge plus the 0.9-confidence
barrel edges inserted for one import record (part_003 lines 274–299). -/
def importEdgesFor (ctx : BuildCtx) (db : DB) (relPath : String)
    (fileNodeId : Nat) (imp : ImportRec) : List Edge :=
  let resolvedPath := resolveImportPath ctx.fsx (pathJoin ctx.rootDir relPath)
    imp.source ctx.rootDir ctx.aliases
  match getNodeId? db resolvedPath "file" resolvedPath 0 with
  | Option.none => []
  | some targetRow =>
    let edgeKind :=
      if imp.reexport then "reexports"
      else if imp.typeOnly then "imports-type" else "imports"
    let direct : Edge := ⟨fileNodeId, targetRow.id, edgeKind, 1, false⟩
    let barrels :=
      if ¬ imp.reexport ∧ isBarrelFile ctx resolvedPath then
        (imp.names.foldl (barrelStep ctx db fileNodeId edgeKind resolvedPath)
          (([], []) : List String × List Edge)).2
      else []
    direct :: barrels

/-- The `extends`/`implements` edges inserted for one heritage record
(part_003 lines 371–394); note there is no self-edge check here. -/
def classEdgesFor (db : DB) (relPath : String) (cls : ClassRec) : List Edge :=
  let extEdges :=
    match cls.extendsName with
    | some ext =>
      match db.nodes.find? (fun n =>
          n.name = cls.name ∧ n.kind = "class" ∧ n.file = relPath) with
      | some sourceRow =>
        (db.nodes.filter (fun n => n.name = ext ∧ n.kind = "class")).map
          (fun t => (⟨sourceRow.id, t.id, "extends", 1, false⟩ : Edge))
      | Option.none => []
    | Option.none => []
  let implEdges :=
    match cls.implementsName with
    | some ifc =>
      match db.nodes.find? (fun n =>
          n.name = cls.name ∧ n.kind = "class" ∧ n.file = relPath) with
      | some sourceRow =>
        (db.nodes.filter (fun n =>
            n.name = ifc ∧ (n.kind = "interface" ∨ n.kind = "class"))).map
          (fun t => (⟨sourceRow.id, t.id, "implements", 1, false⟩ : Edge))
      | Option.none => []
    | Option.none => []
  extEdges ++ implEdges

/-- All edges pass 2 inserts for one file.  Pass 2 writes only to `edges`,
so the node store it queries is the fixed pass-1 store. -/
def fileEdges (ctx : BuildCtx) (db : DB) (relPath : String)
    (symbols : Symbols) : List Edge :=
  match getNodeId? db relPath "file" relPath 0 with
  | Option.none => []
  | some fileNodeRow =>
    let importEdges := symbols.imports.foldl
      (fun acc imp => acc ++ importEdgesFor ctx db relPath fileNodeRow.id imp) []
    let importedNames := importedNamesFor ctx relPath symbols.imports
    let callEdges := symbols.calls.foldl
      (fun acc call => acc ++ callEdgesForCall ctx db relPath importedNames
        symbols.definitions fileNodeRow call) []
    let classEdges := symbols.classes.foldl
      (fun acc cls => acc ++ classEdgesFor db relPath cls) []
    importEdges ++ callEdges ++ classEdges

/-- Pass 2 over every file. -/
def pass2Edges (ctx : BuildCtx) (db : DB) : List Edge :=
  ctx.fileSymbols.foldl (fun acc fs => acc ++ fileEdges ctx db fs.1 fs.2) []

/-- `DELETE FROM edges; DELETE FROM nodes;` — an autocommitted `db.exec`
outside both transactions; AUTOINCREMENT state survives. -/
def clearDb (db : DB) : DB := ⟨[], [], db.nextId⟩

/-- The pass-1 commit point: the store visible if the build aborts during the
pass-2 transaction. -/
def pass1State (ctx : BuildCtx) (prev : DB) : DB := pass1Db ctx (clearDb prev)

/-- A whole `build` invocation on an existing store: clear, pass 1, pass 2. -/
def buildGraphOn (ctx : BuildCtx) (prev : DB) : DB :=
  let db1 := pass1State ctx prev
  ⟨db1.nodes, db1.edges ++ pass2Edges ctx db1, db1.nextId⟩

/-- A `build` on a fresh store. -/
def buildGraph (ctx : BuildCtx) : DB := buildGraphOn ctx DB.empty

/-! ## 6. Watch-mode incremental updater (updateFile, part_002 lines 24–141) -/

/-- Delete the file's edges (endpoints computed against the pre-delete node
table) then its nodes. -/
def deleteFileData (db : DB) (relPath : String) : DB :=
  let fileIds := (db.nodes.filter (fun n => n.file = relPath)).map (fun n => n.id)
  ⟨db.nodes.filter (fun n => ¬ n.file = relPath),
    db.edges.filter (fun e =>
      ¬ (e.sourceId ∈ fileIds ∨ e.targetId ∈ fileIds)),
    db.nextId⟩

/-- `resolveImportSimple`'s extension list: `""` comes first and there is no
`/__init__.py`, no `.js`→`.ts` probe and no alias handling. -/
def simpleExts : List String :=
  ["", ".ts", ".tsx", ".js", ".jsx", ".mjs", ".py",
   "/index.ts", "/index.tsx", "/index.js"]

/-- `resolveImportSimple(fromFile, importSource, rootDir)`. -/
def resolveImportSimple (fsx : String → Bool)
    (fromFile importSource rootDir : String) : String :=
  if ¬ strStartsWith importSource "." then importSource
  else
    let resolved := pathJoin (pathDirname fromFile) importSource
    match firstExisting fsx resolved simpleExts with
    | some candidate => pathRelative rootDir candidate
    | Option.none => pathRelative rootDir resolved

/-- The import edge `updateFile` inserts for one import record (confidence
always 1.0). -/
def updateImportEdges (fsx : String → Bool) (rootDir relPath : String)
    (dbA : DB) (fileNodeId : Nat) (imp : ImportRec) : List Edge :=
  match getNodeId? dbA
      (resolveImportSimple fsx (pathJoin rootDir relPath) imp.source rootDir)
      "file"
      (resolveImportSimple fsx (pathJoin rootDir relPath) imp.source rootDir)
      0 with
  | some targetRow =>
    [⟨fileNodeId, targetRow.id,
      (if imp.reexport then "reexports"
        else if imp.typeOnly then "imports-type" else "imports"),
      1, false⟩]
  | Option.none => []

/-- The `importedNames` map of `updateFile`. -/
def updateImportedNames (fsx : String → Bool) (rootDir relPath : String)
    (imps : List ImportRec) : List (String × String) :=
  imps.foldl (fun acc imp =>
    imp.names.foldl (fun a2 n => a2 ++ [(stripStarAs n,
      resolveImportSimple fsx (pathJoin rootDir relPath) imp.source rootDir)])
      acc) []

/-- The `calls` edges `updateFile` inserts for one call record: three tiers
(imported file, same file, global — no method-suffix tier, no barrel
chase), confidence `importedFrom ? 1.0 : 0.5`. -/
def updateCallEdges (dbA : DB) (relPath : String)
    (importedNames : List (String × String)) (defs : List Definition)
    (fileNodeRow : Node) (call : CallRec) : List Edge :=
  let caller := callerFor dbA relPath defs fileNodeRow call.line
  let importedFrom := mapGet importedNames call.name
  let targets :=
    let fallback :=
      let t2 := searchKinds dbA call.name relPath
      if t2 ≠ [] then t2 else searchKindsAll dbA call.name
    match importedFrom with
    | some impFile =>
      let t1 := searchKinds dbA call.name impFile
      if t1 ≠ [] then t1 else fallback
    | Option.none => fallback
  targets.filterMap (fun t =>
    if t.id ≠ caller.id then
      some ⟨caller.id, t.id, "calls",
        (if importedFrom.isSome then 1 else mkRat 1 2), call.dynamic⟩
    else Option.none)

/-- `updateFile` for a file that still exists: delete its data, re-insert its
nodes, then its import and call edges.  Call confidence is `importedFrom ?
1.0 : 0.5`; there is no method-suffix tier, no barrel handling and no
heritage edges. -/
def updateFile (fsx : String → Bool) (rootDir relPath : String)
    (symbols : Symbols) (db : DB) : DB :=
  let dbA := insertFileNodes (deleteFileData db relPath) relPath symbols
  match getNodeId? dbA relPath "file" relPath 0 with
  | Option.none => dbA
  | some fileNodeRow =>
    ⟨dbA.nodes,
      dbA.edges
        ++ symbols.imports.foldl (fun acc imp =>
            acc ++ updateImportEdges fsx rootDir relPath dbA fileNodeRow.id imp) []
        ++ symbols.calls.foldl (fun acc call =>
            acc ++ updateCallEdges dbA relPath
              (updateImportedNames fsx rootDir relPath symbols.imports)
              symbols.definitions fileNodeRow call) [],
      dbA.nextId⟩

/-! ## 7. Class-hierarchy query (getClassHierarchy, queries.js lines 22–39) -/

/-- The `extends` parents of a node: `SELECT n.id … WHERE e.source_id = ?
AND e.kind = 'extends'`. -/
def parentsOf (edges : List Edge) (c : Nat) : List Nat :=
  ((edges.filter (fun e => e.sourceId = c ∧ e.kind = "extends")).map
    (fun e => e.targetId))

/-- All `extends` targets of the edge list: a finite universe containing
every id the hierarchy BFS can ever enqueue. -/
def targetsAll (edges : List Edge) : List Nat :=
  (edges.filter (fun e => e.kind = "extends")).map (fun e => e.targetId)

/-- The inner `for (const p of parents)` loop: extend the ancestor set and
the queue with the unseen parents. -/
def hierStep (parents anc queue : List Nat) : List Nat × List Nat :=
  parents.foldl (fun st p =>
    if p ∈ st.1 then st else (st.1 ++ [p], st.2 ++ [p])) (anc, queue)

/-- The BFS `while (queue.length > 0)` loop, fuelled.  The fuel only bounds
the iteration count; `getClassHierarchy` passes enough for the loop to drain
the queue (proved below). -/
def hierFuel (edges : List Edge) : Nat → List Nat → List Nat → List Nat
  | 0, anc, _ => anc
  | _ + 1, anc, [] => anc
  | fuel + 1, anc, c :: rest =>
    let st := hierStep (parentsOf edges c) anc rest
    hierFuel edges fuel st.1 st.2

/-- `getClassHierarchy(db, classNodeId)`: ancestor ids via `extends` edges. -/
def getClassHierarchy (edges : List Edge) (classNodeId : Nat) : List Nat :=
  hierFuel edges (edges.length + 1) [] [classNodeId]

/-! ## 8. Specification-side definitions

Definitions in this section are stated from the wording of the specification
claims (not from the source); each theorem below compares one of them with
the corresponding source-derived definition above. -/

/-- The first non-empty tier result; `[]` when every tier is empty. -/
def firstNonempty : List (List Node) → List Node
  | [] => []
  | l :: ls => if l = [] then firstNonempty ls else l

/-- Stated from the spec claim: tier (1) of call resolution — when the call
name is in the imported-names map, the name/kind search in the imported
file, following barrel re-export chains when that file is a barrel and the
direct search is empty. -/
def claimTier1 (ctx : BuildCtx) (db : DB)
    (importedNames : List (String × String)) (callName : String) : List Node :=
  match mapGet importedNames callName with
  | some impFile =>
    let direct := searchKinds db callName impFile
    if direct ≠ [] then direct
    else if isBarrelFile ctx impFile then
      match (resolveBarrelExport ctx (barrelFuel ctx) impFile callName []).1 with
      | some finalFile => searchKinds db callName finalFile
      | Option.none => []
    else []
  | Option.none => []

/-- Stated from the spec claim: the call-confidence cascade — 1.0 when the
caller file equals the target file or the target equals the import origin,
0.7 for the same directory, 0.5 for the same grandparent directory, 0.3
otherwise. -/
def claimConfidence (callerFile targetFile : String)
    (importedFrom : Option String) : ℚ :=
  if callerFile = targetFile ∨ importedFrom = some targetFile then 1
  else if pathDirname callerFile = pathDirname targetFile then mkRat 7 10
  else if pathDirname (pathDirname callerFile)
          = pathDirname (pathDirname targetFile) then mkRat 1 2
  else mkRat 3 10

/-- Stated from the spec claim: among the definitions with start line ≤ the
call line, the one with the greatest start line, ties resolved to the last
seen in extraction order. -/
def lastArgmaxLine (defs : List Definition) (callLine : Nat) : Option Definition :=
  (defs.filter (fun d => d.line ≤ callLine)).foldl (fun acc d =>
    match acc with
    | Option.none => some d
    | some m => if m.line ≤ d.line then some d else some m) Option.none

/-- Stated from the spec claim: the claimed suffix list for relative import
resolution, with `""` probed first. -/
def claimSuffixList : List String :=
  ["", ".ts", ".tsx", ".js", ".jsx", ".mjs", ".py",
   "/index.ts", "/index.tsx", "/index.js", "/__init__.py"]

/-- Stated from the spec claim: relative-import resolution with the claimed
probing order — the `.js`→`.ts`/`.tsx` probes, then the suffix list with
`""` first, then the workspace-relative unresolved fallback. -/
def resolveRelativeClaim (fsx : String → Bool)
    (fromFile importSource rootDir : String) : String :=
  let dir := pathDirname fromFile
  let resolved := pathJoin dir importSource
  if strEndsWith resolved ".js" ∧ fsx (strDropRight resolved 3 ++ ".ts") then
    pathRelative rootDir (strDropRight resolved 3 ++ ".ts")
  else if strEndsWith resolved ".js" ∧ fsx (strDropRight resolved 3 ++ ".tsx") then
    pathRelative rootDir (strDropRight resolved 3 ++ ".tsx")
  else
    match firstExisting fsx resolved claimSuffixList with
    | some candidate => pathRelative rootDir candidate
    | Option.none => pathRelative rootDir resolved

/-- The amended suffix list: the bare path (`""`) is probed last, not
first. -/
def amendedSuffixList : List String :=
  [".ts", ".tsx", ".js", ".jsx", ".mjs", ".py",
   "/index.ts", "/index.tsx", "/index.js", "/__init__.py", ""]

/-- The amended description of relative-import resolution: identical to the
claim except that `""` is probed after every other suffix (and the
no-candidate fallback coincides with that probe's result). -/
def resolveRelativeAmended (fsx : String → Bool)
    (fromFile importSource rootDir : String) : String :=
  let dir := pathDirname fromFile
  let resolved := pathJoin dir importSource
  if strEndsWith resolved ".js" ∧ fsx (strDropRight resolved 3 ++ ".ts") then
    pathRelative rootDir (strDropRight resolved 3 ++ ".ts")
  else if strEndsWith resolved ".js" ∧ fsx (strDropRight resolved 3 ++ ".tsx") then
    pathRelative rootDir (strDropRight resolved 3 ++ ".tsx")
  else
    match firstExisting fsx resolved amendedSuffixList with
    | some candidate => pathRelative rootDir candidate
    | Option.none => pathRelative rootDir resolved

/-- A node's identity apart from its store-assigned id. -/
def nodeKey (n : Node) : String × String × String × Nat × Option Nat :=
  (n.name, n.kind, n.file, n.line, n.endLine)

/-- Reachability from `s` through one or more `extends` edges. -/
inductive Reaches (edges : List Edge) (s : Nat) : Nat → Prop
  | base {t : Nat} : t ∈ parentsOf edges s → Reaches edges s t
  | step {u t : Nat} : Reaches edges s u → t ∈ parentsOf edges u →
      Reaches edges s t

/-! ## 9. Concrete scenarios -/

/-- Filesystem of the barrel scenario: `user.ts`, barrel `index.ts`,
`impl.ts`, all in the workspace root `/ws`. -/
def fsC3 : String → Bool := fun p =>
  p = "/ws/user.ts" ∨ p = "/ws/index.ts" ∨ p = "/ws/impl.ts"

/-- `user.ts`: `import { foo } from './index'; foo();`. -/
def symsUser : Symbols :=
  ⟨[], [], [⟨"./index", ["foo"], 1, false, false, false⟩],
    [⟨"foo", 2, false⟩], []⟩

/-- `index.ts`: `export { foo } from './impl';` (a barrel). -/
def symsIndex : Symbols :=
  ⟨[], [], [⟨"./impl", ["foo"], 1, false, true, false⟩], [], []⟩

/-- `impl.ts`: `export function foo() {}`. -/
def symsImpl : Symbols :=
  ⟨[⟨"foo", "function", 1, some 1⟩], [⟨"foo", "function", 1⟩], [], [], []⟩

/-- The barrel scenario build context. -/
def ctxC3 : BuildCtx :=
  ⟨"/ws", fsC3, Aliases.none,
    [("user.ts", symsUser), ("index.ts", symsIndex), ("impl.ts", symsImpl)]⟩

/-- Filesystem for the suffix-order scenario: both `/ws/b` (say a
directory) and `/ws/b.ts` exist. -/
def fsC5 : String → Bool := fun p =>
  p = "/ws/a.ts" ∨ p = "/ws/b" ∨ p = "/ws/b.ts"

/-- `a.ts` of the self-extends scenario: `class Foo extends Foo {}` at
line 1, as the extractor records it (a class definition plus one heritage
record whose superclass name is the class itself). -/
def symsC8 : Symbols :=
  ⟨[⟨"Foo", "class", 1, some 1⟩], [], [], [],
    [⟨"Foo", some "Foo", Option.none, 1⟩]⟩

/-- The self-extends build context. -/
def ctxC8 : BuildCtx :=
  ⟨"/ws", fun p => p = "/ws/a.ts", Aliases.none, [("a.ts", symsC8)]⟩

/-- Filesystem with the single file `a.ts`. -/
def fsC9 : String → Bool := fun p => p = "/ws/a.ts"

/-- `a.ts` of the incremental scenario: `function g() {}` at line 1 and
`function h() { g(); }` at lines 2–4 with the call on line 3. -/
def symsC9 : Symbols :=
  ⟨[⟨"g", "function", 1, some 1⟩, ⟨"h", "function", 2, some 4⟩], [], [],
    [⟨"g", 3, false⟩], []⟩

/-- The incremental scenario build context. -/
def ctxC9 : BuildCtx := ⟨"/ws", fsC9, Aliases.none, [("a.ts", symsC9)]⟩

/-! ## 10. Helper lemmas -/

theorem findSome?_append {α β : Type} (l1 l2 : List α) (f : α → Option β) :
    (l1 ++ l2).findSome? f
      = ((l1.findSome? f).orElse (fun _ => l2.findSome? f)) := by
  induction l1 with
  | nil => rfl
  | cons a l ih =>
    simp only [List.cons_append, List.findSome?]
    cases f a <;> simp [ih]

theorem mem_foldl_append {α β : Type} (f : β → List α) (l : List β)
    (init : List α) (x : α) :
    x ∈ l.foldl (fun acc b => acc ++ f b) init
      ↔ x ∈ init ∨ ∃ b ∈ l, x ∈ f b := by
  induction l generalizing init with
  | nil => simp
  | cons b bs ih =>
    simp only [List.foldl_cons, ih, List.mem_append, List.mem_cons]
    constructor
    · rintro ((h | h) | ⟨c, hc, hx⟩)
      · exact Or.inl h
      · exact Or.inr ⟨b, Or.inl rfl, h⟩
      · exact Or.inr ⟨c, Or.inr hc, hx⟩
    · rintro (h | ⟨c, (rfl | hc), hx⟩)
      · exact Or.inl (Or.inl h)
      · exact Or.inl (Or.inr hx)
      · exact Or.inr ⟨c, hc, hx⟩

theorem insertNodeIG_edges (db : DB) (name kind file : String) (line : Nat)
    (endLine : Option Nat) :
    (insertNodeIG db name kind file line endLine).edges = db.edges := by
  unfold insertNodeIG
  split <;> rfl

theorem insertFileNodes_edges (db : DB) (relPath : String) (symbols : Symbols) :
    (insertFileNodes db relPath symbols).edges = db.edges := by
  unfold insertFileNodes
  have h2 : ∀ (l : List ExportRec) (d : DB),
      (l.foldl (fun acc e =>
        insertNodeIG acc e.name e.kind relPath e.line Option.none) d).edges
        = d.edges := by
    intro l
    induction l with
    | nil => intro d; rfl
    | cons e es ih => intro d; rw [List.foldl_cons, ih, insertNodeIG_edges]
  have h1 : ∀ (l : List Definition) (d : DB),
      (l.foldl (fun acc d0 =>
        insertNodeIG acc d0.name d0.kind relPath d0.line d0.endLine) d).edges
        = d.edges := by
    intro l
    induction l with
    | nil => intro d; rfl
    | cons e es ih => intro d; rw [List.foldl_cons, ih, insertNodeIG_edges]
  rw [h2, h1, insertNodeIG_edges]

theorem pass1Db_edges (ctx : BuildCtx) (db : DB) :
    (pass1Db ctx db).edges = db.edges := by
  unfold pass1Db
  induction ctx.fileSymbols generalizing db with
  | nil => rfl
  | cons fs rest ih => rw [List.foldl_cons, ih, insertFileNodes_edges]

theorem insertNodeIG_nodes_eq_or (db : DB) (name kind file : String)
    (line : Nat) (endLine : Option Nat) :
    (insertNodeIG db name kind file line endLine).nodes = db.nodes
      ∨ (insertNodeIG db name kind file line endLine).nodes
          = db.nodes ++ [⟨db.nextId, name, kind, file, line, endLine⟩] := by
  unfold insertNodeIG
  split
  · exact Or.inl rfl
  · exact Or.inr rfl

theorem pass1State_edges (ctx : BuildCtx) (prev : DB) :
    (pass1State ctx prev).edges = [] := by
  unfold pass1State
  rw [pass1Db_edges]
  rfl

/-! ## 11. Claim theorems -/

/-- C3 counterexample: in the barrel scenario (`user.ts` imports `foo` from
barrel `index.ts`, which re-exports it from `impl.ts` where it is defined,
all three files in the same directory), the `calls` edge from `user.ts`'s
file node (id 0) to `foo@impl.ts` (id 3) gets confidence 0.7 — the import
origin recorded for `foo` is the barrel, not `impl.ts`, so the
same-directory rule fires — and not 1.0 as the claim states; no `calls`
edge in the build has confidence 1.0. -/
theorem C3_counterexample :
    (⟨0, 3, "calls", mkRat 7 10, false⟩ : Edge) ∈ (buildGraph ctxC3).edges
      ∧ (∀ e ∈ (buildGraph ctxC3).edges, e.kind = "calls" →
          e.confidence = mkRat 7 10)
      ∧ (mkRat 7 10 : ℚ) ≠ 1 := by decide

/-- C3 amended: in the barrel scenario the build contains exactly the nodes
`user.ts` (0), `index.ts` (1), `impl.ts` (2), `foo@impl.ts` (3) and the
edges `user.ts→index.ts [imports, 1.0]`, `user.ts→impl.ts [imports, 0.9]`,
`user.ts[file]→foo@impl.ts [calls, 0.7]` (0.7, not the claimed 1.0, because
the import origin of `foo` is the barrel `index.ts` and the same-directory
rule applies) and `index.ts→impl.ts [reexports, 1.0]`. -/
theorem C3_amended :
    (buildGraph ctxC3).nodes =
      [⟨0, "user.ts", "file", "user.ts", 0, Option.none⟩,
       ⟨1, "index.ts", "file", "index.ts", 0, Option.none⟩,
       ⟨2, "impl.ts", "file", "impl.ts", 0, Option.none⟩,
       ⟨3, "foo", "function", "impl.ts", 1, some 1⟩]
    ∧ (buildGraph ctxC3).edges =
      [⟨0, 1, "imports", 1, false⟩,
       ⟨0, 2, "imports", mkRat 9 10, false⟩,
       ⟨0, 3, "calls", mkRat 7 10, false⟩,
       ⟨1, 2, "reexports", 1, false⟩] := by decide

/-- C5 counterexample: with `/ws/b` and `/ws/b.ts` both existing, the
resolver maps `./b` (from `/ws/a.ts`) to `b.ts` — the bare path is not in
the probed suffix list — while the claimed order (`""` first) would return
`b`, which does exist. -/
theorem C5_counterexample :
    resolveImportPath fsC5 "/ws/a.ts" "./b" "/ws" Aliases.none = "b.ts"
      ∧ resolveRelativeClaim fsC5 "/ws/a.ts" "./b" "/ws" = "b"
      ∧ fsC5 "/ws/b" = true
      ∧ ("b.ts" : String) ≠ "b" := by decide

/-- C8: the heritage pass has no self-edge check: for a file whose single
class `Foo` (node id 1) lists itself as superclass (`class Foo extends Foo
{}`, which parses), the build inserts an `extends` edge with
`source_id = target_id = 1`, violating the no-self-edge invariant that the
calls pass enforces. -/
theorem C8_self_edge :
    (buildGraph ctxC8).edges = [⟨1, 1, "extends", 1, false⟩]
      ∧ ∃ e ∈ (buildGraph ctxC8).edges, e.sourceId = e.targetId := by decide

/-- C6 counterexample: in the barrel scenario, the store committed by the
pass-1 transaction (all nodes, no edges) — the state left behind when the
pass-2 transaction aborts, since the clear and the two passes are three
separately committed units — differs from both the pre-build store (empty)
and the post-build store. -/
theorem C6_counterexample :
    pass1State ctxC3 DB.empty ≠ DB.empty
      ∧ pass1State ctxC3 DB.empty ≠ buildGraphOn ctxC3 DB.empty := by decide

/-- C7 counterexample: the barrel scenario inserts the indirect import edge
`user.ts→impl.ts` of kind `imports` (not `calls`) with confidence 0.9,
refuting "every non-`calls` edge has confidence exactly 1.0". -/
theorem C7_counterexample :
    (⟨0, 2, "imports", mkRat 9 10, false⟩ : Edge) ∈ (buildGraph ctxC3).edges
      ∧ ("imports" : String) ≠ "calls"
      ∧ (mkRat 9 10 : ℚ) ≠ 1 := by decide

/-- C9 counterexample: for the single file `a.ts` (`g` at line 1, `h` at
lines 2–4 calling `g` at line 3), a full rebuild scores the `h → g` calls
edge 1.0 (same file), but `delete(f); reparse(f)` via `updateFile` scores
it 0.5 (`g` was not imported) — the node tuples agree, the edge
confidences do not, so the delta does not reproduce the rebuilt graph
restricted to the file. -/
theorem C9_counterexample :
    (buildGraph ctxC9).edges = [⟨2, 1, "calls", 1, false⟩]
      ∧ (updateFile fsC9 "/ws" "a.ts" symsC9 (buildGraph ctxC9)).edges
          = [⟨5, 4, "calls", mkRat 1 2, false⟩]
      ∧ (updateFile fsC9 "/ws" "a.ts" symsC9 (buildGraph ctxC9)).nodes.map nodeKey
          = (buildGraph ctxC9).nodes.map nodeKey
      ∧ (mkRat 1 2 : ℚ) ≠ 1 := by decide

theorem resolveTail_eq (fsx : String → Bool) (rootDir resolved : String) :
    (match firstExisting fsx resolved resolveExts with
      | some candidate => pathRelative rootDir candidate
      | Option.none =>
        if fsx resolved then pathRelative rootDir resolved
        else pathRelative rootDir resolved)
    = (match firstExisting fsx resolved amendedSuffixList with
      | some candidate => pathRelative rootDir candidate
      | Option.none => pathRelative rootDir resolved) := by
  have hl : amendedSuffixList = resolveExts ++ [""] := rfl
  rw [hl]
  unfold firstExisting
  rw [findSome?_append]
  cases hfe : List.findSome?
      (fun ext => if fsx (resolved ++ ext) = true
        then some (resolved ++ ext) else Option.none) resolveExts with
  | some c => simp [Option.orElse]
  | none =>
    simp only [Option.orElse, List.findSome?, String.append_empty]
    cases hfs : fsx resolved <;> simp [hfs]

/-- C5: the claim misstates the probing order of `resolveImportPath` for
relative imports: the bare resolved path (`""` suffix) is not probed first;
the code probes the `.js`→`.ts`/`.tsx` replacements, then the ten
extension/index suffixes, and only then falls back to the workspace-relative
bare path (returned whether or not it exists).  This theorem proves the code
equal to that amended description. -/
theorem C5_amended (fsx : String → Bool)
    (fromFile importSource rootDir : String) (aliases : Aliases)
    (h : strStartsWith importSource "." = true) :
    resolveImportPath fsx fromFile importSource rootDir aliases
      = resolveRelativeAmended fsx fromFile importSource rootDir := by
  unfold resolveImportPath resolveRelativeAmended
  simp only [h, not_true, if_false]
  split
  · rfl
  · split
    · rfl
    · exact resolveTail_eq fsx rootDir _

/-- C5 witness: the amended description agrees with the resolver on a
concrete relative import. -/
theorem C5_amended_witness :
    strStartsWith "./b" "." = true
      ∧ resolveImportPath fsC5 "/ws/a.ts" "./b" "/ws" Aliases.none
          = resolveRelativeAmended fsC5 "/ws/a.ts" "./b" "/ws" :=
  ⟨by decide, C5_amended fsC5 "/ws/a.ts" "./b" "/ws" Aliases.none (by decide)⟩

/-- C6: the build's three storage units are the autocommitted clear, the
pass-1 (nodes) transaction and the pass-2 (edges) transaction — not one
transaction.  The cleared state is the empty store (AUTOINCREMENT kept);
the pass-1 commit point holds every node and no edge; the final state is
the pass-1 state plus the pass-2 edges.  An abort during pass 2 therefore
leaves the node-only store, not the pre-build or post-build state. -/
theorem C6_amended (ctx : BuildCtx) (prev : DB) :
    clearDb prev = ⟨[], [], prev.nextId⟩
      ∧ (pass1State ctx prev).edges = []
      ∧ buildGraphOn ctx prev
          = ⟨(pass1State ctx prev).nodes, pass2Edges ctx (pass1State ctx prev),
              (pass1State ctx prev).nextId⟩ := by
  refine ⟨rfl, pass1State_edges ctx prev, ?_⟩
  show (⟨(pass1State ctx prev).nodes,
      (pass1State ctx prev).edges ++ pass2Edges ctx (pass1State ctx prev),
      (pass1State ctx prev).nextId⟩ : DB) = _
  rw [pass1State_edges]
  rfl

/-- C6 witness: the commit-point decomposition at the barrel scenario. -/
theorem C6_amended_witness :
    clearDb DB.empty = (⟨[], [], DB.empty.nextId⟩ : DB)
      ∧ (pass1State ctxC3 DB.empty).edges = []
      ∧ buildGraphOn ctxC3 DB.empty
          = ⟨(pass1State ctxC3 DB.empty).nodes,
              pass2Edges ctxC3 (pass1State ctxC3 DB.empty),
              (pass1State ctxC3 DB.empty).nextId⟩ :=
  C6_amended ctxC3 DB.empty

theorem fallback_eq_firstNonempty (db : DB) (relPath callName : String) :
    (if searchKinds db callName relPath ≠ [] then searchKinds db callName relPath
     else
       if searchMethodSuffix db callName ≠ [] then searchMethodSuffix db callName
       else searchKindsAll db callName)
    = firstNonempty [searchKinds db callName relPath,
        searchMethodSuffix db callName, searchKindsAll db callName] := by
  by_cases h2 : searchKinds db callName relPath = [] <;>
    by_cases h3 : searchMethodSuffix db callName = [] <;>
    by_cases h4 : searchKindsAll db callName = [] <;>
    simp [firstNonempty, h2, h3, h4]

/-- C1: for every call, the resolver's target list is the first non-empty
tier among (1) the name/kind-filtered search in the imported file when the
call name is in the imported-names map, following barrel re-export chains
when that file is a barrel and the direct search is empty, (2) the same
search in the caller's own file, (3) method nodes whose name ends in
`"." ++ callName`, (4) the name/kind search over every file. -/
theorem C1_call_resolution_tiers (ctx : BuildCtx) (db : DB) (relPath : String)
    (importedNames : List (String × String)) (callName : String) :
    callTargets ctx db relPath (mapGet importedNames callName) callName =
      firstNonempty [claimTier1 ctx db importedNames callName,
        searchKinds db callName relPath,
        searchMethodSuffix db callName,
        searchKindsAll db callName] := by
  unfold callTargets claimTier1
  cases him : mapGet importedNames callName with
  | none =>
    by_cases h2 : searchKinds db callName relPath = [] <;>
      by_cases h3 : searchMethodSuffix db callName = [] <;>
      by_cases h4 : searchKindsAll db callName = [] <;>
      simp [firstNonempty, h2, h3, h4]
  | some impFile =>
    by_cases h1 : searchKinds db callName impFile = [] <;>
      by_cases hb : isBarrelFile ctx impFile = true <;>
      by_cases h2 : searchKinds db callName relPath = [] <;>
      by_cases h3 : searchMethodSuffix db callName = [] <;>
      by_cases h4 : searchKindsAll db callName = [] <;>
      simp [firstNonempty, h1, hb, h2, h3, h4]

/-- C1 witness: the tier equation at the barrel scenario's call to `foo`. -/
theorem C1_call_resolution_tiers_witness :
    callTargets ctxC3 (pass1State ctxC3 DB.empty) "user.ts"
        (mapGet (importedNamesFor ctxC3 "user.ts" symsUser.imports) "foo") "foo"
      = firstNonempty [claimTier1 ctxC3 (pass1State ctxC3 DB.empty)
            (importedNamesFor ctxC3 "user.ts" symsUser.imports) "foo",
          searchKinds (pass1State ctxC3 DB.empty) "foo" "user.ts",
          searchMethodSuffix (pass1State ctxC3 DB.empty) "foo",
          searchKindsAll (pass1State ctxC3 DB.empty) "foo"] :=
  C1_call_resolution_tiers ctxC3 (pass1State ctxC3 DB.empty) "user.ts"
    (importedNamesFor ctxC3 "user.ts" symsUser.imports) "foo"

theorem computeConfidence_cases (cf tf : String) (imp : Option String) :
    computeConfidence cf tf imp = mkRat 3 10
      ∨ computeConfidence cf tf imp = mkRat 1 2
      ∨ computeConfidence cf tf imp = mkRat 7 10
      ∨ computeConfidence cf tf imp = 1 := by
  unfold computeConfidence
  split_ifs <;> simp

theorem filterMap_mkEdge (caller : Node) (relPath : String)
    (imp : Option String) (dyn : Bool) (l : List Node) :
    l.filterMap (fun t => if t.id ≠ caller.id
        then some (⟨caller.id, t.id, "calls",
          computeConfidence relPath t.file imp, dyn⟩ : Edge)
        else Option.none)
      = (l.filter (fun t => t.id ≠ caller.id)).map
          (fun t => (⟨caller.id, t.id, "calls",
            computeConfidence relPath t.file imp, dyn⟩ : Edge)) := by
  induction l with
  | nil => rfl
  | cons a l ih =>
    rw [List.filterMap_cons, List.filter_cons]
    by_cases h : a.id ≠ caller.id
    · rw [if_pos h, if_pos (decide_eq_true h), List.map_cons, ih]
    · rw [if_neg h, if_neg (by simpa using h), ih]

theorem rankTargets_pairwise (relPath : String) (importedFrom : Option String)
    (targets : List Node) :
    (rankTargets relPath importedFrom targets).Pairwise
      (confGE relPath importedFrom) := by
  unfold rankTargets
  split
  · haveI : IsTotal Node (confGE relPath importedFrom) :=
      ⟨fun a b => le_total _ _⟩
    haveI : IsTrans Node (confGE relPath importedFrom) :=
      ⟨fun _ _ _ h1 h2 => le_trans h2 h1⟩
    exact List.sorted_insertionSort _ _
  · next hlen =>
    match targets, hlen with
    | [], _ => exact List.Pairwise.nil
    | [a], _ => exact List.pairwise_singleton _ a
    | a :: b :: t, h => exact absurd (by simp) h

/-- C2: the call-confidence formula matches the claim's cascade whenever
both file strings are non-empty (the code returns 0.3 outright on an empty
string); and for every call record, the inserted `calls` edges have kind
`calls`, the `dynamic` flag copied from the call, no self-edge, confidences
inside {0.3, 0.5, 0.7, 0.9, 1.0}, and appear in descending confidence
order. -/
theorem C2_confidence_and_insertion :
    (∀ (callerFile targetFile : String) (importedFrom : Option String),
        callerFile ≠ "" → targetFile ≠ "" →
        computeConfidence callerFile targetFile importedFrom
          = claimConfidence callerFile targetFile importedFrom)
    ∧ (∀ (ctx : BuildCtx) (db : DB) (relPath : String)
        (importedNames : List (String × String)) (defs : List Definition)
        (fileNode : Node) (call : CallRec),
        (∀ e ∈ callEdgesForCall ctx db relPath importedNames defs fileNode call,
            e.kind = "calls" ∧ e.dynamic = call.dynamic
              ∧ e.sourceId ≠ e.targetId
              ∧ e.confidence ∈
                  ({mkRat 3 10, mkRat 1 2, mkRat 7 10, mkRat 9 10, 1} : Set ℚ))
          ∧ (callEdgesForCall ctx db relPath importedNames defs
              fileNode call).Pairwise
              (fun a b => b.confidence ≤ a.confidence)) := by
  constructor
  · intro cf tf imp h1 h2
    unfold computeConfidence claimConfidence
    rw [if_neg (by simp [h1, h2])]
    by_cases he : cf = tf
    · simp [he]
    · by_cases hi : imp = some tf <;> simp [he, hi]
  · intro ctx db relPath importedNames defs fileNode call
    unfold callEdgesForCall
    rw [filterMap_mkEdge]
    constructor
    · intro e he
      rw [List.mem_map] at he
      obtain ⟨t, ht, rfl⟩ := he
      have hid : t.id ≠ (callerFor db relPath defs fileNode call.line).id := by
        have := (List.mem_filter.mp ht).2
        simpa using this
      refine ⟨rfl, rfl, fun h => hid (by simpa using h.symm), ?_⟩
      rcases computeConfidence_cases relPath t.file
          (mapGet importedNames call.name) with h | h | h | h <;> simp [h]
    · refine List.pairwise_map.mpr ?_
      exact ((rankTargets_pairwise relPath (mapGet importedNames call.name)
        (callTargets ctx db relPath (mapGet importedNames call.name)
          call.name)).filter _).imp (fun h => h)

/-- C2 witness: the confidence formula at a concrete same-directory pair,
and the concrete `calls` edge of the barrel scenario with its properties. -/
theorem C2_confidence_and_insertion_witness :
    computeConfidence "a/x.ts" "a/y.ts" Option.none
        = claimConfidence "a/x.ts" "a/y.ts" Option.none
      ∧ ((⟨0, 3, "calls", mkRat 7 10, false⟩ : Edge).kind = "calls"
          ∧ (⟨0, 3, "calls", mkRat 7 10, false⟩ : Edge).dynamic
              = (⟨"foo", 2, false⟩ : CallRec).dynamic
          ∧ (⟨0, 3, "calls", mkRat 7 10, false⟩ : Edge).sourceId
              ≠ (⟨0, 3, "calls", mkRat 7 10, false⟩ : Edge).targetId
          ∧ (⟨0, 3, "calls", mkRat 7 10, false⟩ : Edge).confidence ∈
              ({mkRat 3 10, mkRat 1 2, mkRat 7 10, mkRat 9 10, 1} : Set ℚ)) := by
  constructor
  · exact C2_confidence_and_insertion.1 "a/x.ts" "a/y.ts" Option.none
      (by decide) (by decide)
  · exact (C2_confidence_and_insertion.2 ctxC3 (pass1State ctxC3 DB.empty)
      "user.ts" (importedNamesFor ctxC3 "user.ts" symsUser.imports)
      symsUser.definitions ⟨0, "user.ts", "file", "user.ts", 0, Option.none⟩
      ⟨"foo", 2, false⟩).1 ⟨0, 3, "calls", mkRat 7 10, false⟩ (by decide)

theorem callerFold_eq (db : DB) (relPath : String) (L : Nat)
    (defs : List Definition) (acc : Option Node)
    (hlook : ∀ d ∈ defs, (getNodeId? db d.name d.kind relPath d.line).isSome) :
    defs.foldl (fun acc d =>
      if d.line ≤ L then
        match getNodeId? db d.name d.kind relPath d.line with
        | some row => some row
        | Option.none => acc
      else acc) acc
    = (match (defs.filter (fun d => d.line ≤ L)).getLast? with
       | some d => getNodeId? db d.name d.kind relPath d.line
       | Option.none => acc) := by
  induction defs generalizing acc with
  | nil => rfl
  | cons d rest ih =>
    have hd := hlook d (List.mem_cons_self d rest)
    rw [List.foldl_cons, List.filter_cons]
    by_cases h : d.line ≤ L
    · rw [if_pos h, if_pos (decide_eq_true h)]
      obtain ⟨row, hrow⟩ := Option.isSome_iff_exists.mp hd
      rw [hrow, ih (some row) (fun x hx => hlook x (List.mem_cons_of_mem d hx)),
        List.getLast?_cons]
      cases hfl : (rest.filter (fun d => d.line ≤ L)).getLast? with
      | none => simp [hrow]
      | some d2 => simp
    · rw [if_neg h, if_neg (by simpa using h)]
      exact ih acc (fun x hx => hlook x (List.mem_cons_of_mem d hx))

theorem pickFold_sorted (l : List Definition) (m : Definition)
    (hle : ∀ x ∈ l, m.line ≤ x.line)
    (hs : l.Pairwise (fun a b => a.line ≤ b.line)) :
    l.foldl (fun acc d =>
      match acc with
      | Option.none => some d
      | some mm => if mm.line ≤ d.line then some d else some mm) (some m)
    = some (l.getLast?.getD m) := by
  induction l generalizing m with
  | nil => rfl
  | cons d rest ih =>
    rw [List.foldl_cons]
    have h1 : m.line ≤ d.line := hle d (List.mem_cons_self d rest)
    show rest.foldl _ (if m.line ≤ d.line then some d else some m) = _
    rw [if_pos h1,
      ih d (fun x hx => (List.pairwise_cons.mp hs).1 x hx)
        (List.pairwise_cons.mp hs).2,
      List.getLast?_cons]
    simp

theorem lastArgmaxLine_sorted (defs : List Definition) (L : Nat)
    (hs : defs.Pairwise (fun a b => a.line ≤ b.line)) :
    lastArgmaxLine defs L = (defs.filter (fun d => d.line ≤ L)).getLast? := by
  unfold lastArgmaxLine
  have hp := hs.filter (fun d => decide (d.line ≤ L))
  cases hfl : defs.filter (fun d => d.line ≤ L) with
  | nil => rfl
  | cons d rest =>
    rw [hfl] at hp
    rw [List.foldl_cons]
    show rest.foldl _ (some d) = _
    rw [pickFold_sorted rest d (fun x hx => (List.pairwise_cons.mp hp).1 x hx)
      (List.pairwise_cons.mp hp).2, List.getLast?_cons]

/-- C4: when the extracted definition list is ordered by non-decreasing
start line (the extractor's pre-order walk emits definitions in source
order) and every definition's node row is present (pass 1 inserted them),
the caller chosen for a call at line L is the definition with the greatest
start line ≤ L, ties resolved to the last seen, and the file node when no
definition starts at or before L. -/
theorem C4_caller_attribution (db : DB) (relPath : String)
    (defs : List Definition) (fileNode : Node) (L : Nat)
    (hsort : defs.Pairwise (fun a b => a.line ≤ b.line))
    (hlook : ∀ d ∈ defs, (getNodeId? db d.name d.kind relPath d.line).isSome) :
    callerFor db relPath defs fileNode L
      = (match lastArgmaxLine defs L with
         | some d => (getNodeId? db d.name d.kind relPath d.line).getD fileNode
         | Option.none => fileNode) := by
  unfold callerFor
  rw [callerFold_eq db relPath L defs Option.none hlook,
    lastArgmaxLine_sorted defs L hsort]
  cases hfl : (defs.filter (fun d => d.line ≤ L)).getLast? <;> rfl

/-- C4 witness: in the single-file scenario (`g` at line 1, `h` at line 2),
the call at line 3 is attributed to `h`, the greatest start line ≤ 3. -/
theorem C4_caller_attribution_witness :
    symsC9.definitions.Pairwise (fun a b => a.line ≤ b.line)
      ∧ (∀ d ∈ symsC9.definitions,
          (getNodeId? (pass1State ctxC9 DB.empty) d.name d.kind "a.ts"
            d.line).isSome)
      ∧ callerFor (pass1State ctxC9 DB.empty) "a.ts" symsC9.definitions
          ⟨0, "a.ts", "file", "a.ts", 0, Option.none⟩ 3
        = (match lastArgmaxLine symsC9.definitions 3 with
           | some d => (getNodeId? (pass1State ctxC9 DB.empty) d.name d.kind
              "a.ts" d.line).getD ⟨0, "a.ts", "file", "a.ts", 0, Option.none⟩
           | Option.none => ⟨0, "a.ts", "file", "a.ts", 0, Option.none⟩) :=
  ⟨by decide, by decide,
    C4_caller_attribution (pass1State ctxC9 DB.empty) "a.ts" symsC9.definitions
      ⟨0, "a.ts", "file", "a.ts", 0, Option.none⟩ 3 (by decide) (by decide)⟩

theorem computeConfidence_bounds (cf tf : String) (imp : Option String) :
    mkRat 3 10 ≤ computeConfidence cf tf imp
      ∧ computeConfidence cf tf imp ≤ 1 := by
  rcases computeConfidence_cases cf tf imp with h | h | h | h <;> rw [h] <;>
    exact ⟨by decide, by decide⟩

theorem barrelFold_mem (ctx : BuildCtx) (db : DB) (fileNodeId : Nat)
    (edgeKind resolvedPath : String) (names : List String)
    (st : List String × List Edge) (e : Edge)
    (he : e ∈ (names.foldl (barrelStep ctx db fileNodeId edgeKind resolvedPath)
      st).2) :
    e ∈ st.2 ∨ (e.confidence = mkRat 9 10
      ∧ (e.kind = "imports" ∨ e.kind = "imports-type")) := by
  induction names generalizing st with
  | nil => exact Or.inl he
  | cons name rest ih =>
    rw [List.foldl_cons] at he
    rcases ih _ he with hmem | hq
    · unfold barrelStep at hmem
      cases hr : (resolveBarrelExport ctx (barrelFuel ctx) resolvedPath
          (stripStarAs name) []).1 with
      | none => rw [hr] at hmem; exact Or.inl hmem
      | some a =>
        simp only [hr] at hmem
        by_cases hcond : a ≠ resolvedPath ∧ a ∉ st.1
        · rw [if_pos hcond] at hmem
          cases hn : getNodeId? db a "file" a 0 with
          | none => simp only [hn] at hmem; exact Or.inl hmem
          | some row =>
            simp only [hn] at hmem
            rcases List.mem_append.mp hmem with h | h
            · exact Or.inl h
            · rcases List.mem_singleton.mp h with rfl
              refine Or.inr ⟨rfl, ?_⟩
              by_cases hk : edgeKind = "imports-type"
              · rw [if_pos hk]; exact Or.inr rfl
              · rw [if_neg hk]; exact Or.inl rfl
        · rw [if_neg hcond] at hmem
          exact Or.inl hmem
    · exact Or.inr hq

theorem importEdgesFor_mem (ctx : BuildCtx) (db : DB) (relPath : String)
    (fileNodeId : Nat) (imp : ImportRec) (e : Edge)
    (he : e ∈ importEdgesFor ctx db relPath fileNodeId imp) :
    (e.confidence = 1
        ∧ (e.kind = "reexports" ∨ e.kind = "imports-type" ∨ e.kind = "imports"))
      ∨ (e.confidence = mkRat 9 10
        ∧ (e.kind = "imports" ∨ e.kind = "imports-type")) := by
  unfold importEdgesFor at he
  cases hres : getNodeId? db
      (resolveImportPath ctx.fsx (pathJoin ctx.rootDir relPath) imp.source
        ctx.rootDir ctx.aliases) "file"
      (resolveImportPath ctx.fsx (pathJoin ctx.rootDir relPath) imp.source
        ctx.rootDir ctx.aliases) 0 with
  | none =>
    simp only [hres] at he
    exact absurd he (List.not_mem_nil e)
  | some targetRow =>
    simp only [hres] at he
    rcases List.mem_cons.mp he with rfl | hb
    · refine Or.inl ⟨rfl, ?_⟩
      by_cases h1 : imp.reexport <;> by_cases h2 : imp.typeOnly <;>
        simp [h1, h2]
    · by_cases hbar : (¬ imp.reexport = true)
          ∧ isBarrelFile ctx (resolveImportPath ctx.fsx
            (pathJoin ctx.rootDir relPath) imp.source ctx.rootDir
            ctx.aliases) = true
      · rw [if_pos hbar] at hb
        rcases barrelFold_mem ctx db fileNodeId _ _ imp.names ([], []) e hb with
          h | h
        · exact absurd h (List.not_mem_nil e)
        · exact Or.inr h
      · rw [if_neg hbar] at hb
        exact absurd hb (List.not_mem_nil e)

theorem callEdgesForCall_mem (ctx : BuildCtx) (db : DB) (relPath : String)
    (importedNames : List (String × String)) (defs : List Definition)
    (fileNode : Node) (call : CallRec) (e : Edge)
    (he : e ∈ callEdgesForCall ctx db relPath importedNames defs fileNode call) :
    e.kind = "calls"
      ∧ mkRat 3 10 ≤ e.confidence ∧ e.confidence ≤ 1 := by
  unfold callEdgesForCall at he
  rw [filterMap_mkEdge] at he
  rw [List.mem_map] at he
  obtain ⟨t, _, rfl⟩ := he
  exact ⟨rfl, computeConfidence_bounds relPath t.file _⟩

theorem classEdgesFor_mem (db : DB) (relPath : String) (cls : ClassRec)
    (e : Edge) (he : e ∈ classEdgesFor db relPath cls) :
    e.confidence = 1 ∧ (e.kind = "extends" ∨ e.kind = "implements") := by
  unfold classEdgesFor at he
  rcases List.mem_append.mp he with h | h
  · split at h
    · split at h
      · rw [List.mem_map] at h
        obtain ⟨t, _, rfl⟩ := h
        exact ⟨rfl, Or.inl rfl⟩
      · exact absurd h (List.not_mem_nil e)
    · exact absurd h (List.not_mem_nil e)
  · split at h
    · split at h
      · rw [List.mem_map] at h
        obtain ⟨t, _, rfl⟩ := h
        exact ⟨rfl, Or.inr rfl⟩
      · exact absurd h (List.not_mem_nil e)
    · exact absurd h (List.not_mem_nil e)

theorem fileEdges_mem (ctx : BuildCtx) (db : DB) (relPath : String)
    (symbols : Symbols) (e : Edge) (he : e ∈ fileEdges ctx db relPath symbols) :
    (mkRat 3 10 ≤ e.confidence ∧ e.confidence ≤ 1)
      ∧ (e.kind ≠ "calls" → e.confidence = 1 ∨ e.confidence = mkRat 9 10) := by
  unfold fileEdges at he
  split at he
  · exact absurd he (List.not_mem_nil e)
  · rcases List.mem_append.mp he with h12 | h3
    · rcases List.mem_append.mp h12 with h1 | h2
      · rw [mem_foldl_append] at h1
        rcases h1 with h | ⟨imp, _, himp⟩
        · exact absurd h (List.not_mem_nil e)
        · rcases importEdgesFor_mem ctx db relPath _ imp e himp with
            ⟨hc, _⟩ | ⟨hc, _⟩
          · exact ⟨by rw [hc]; exact ⟨by decide, by decide⟩,
              fun _ => Or.inl hc⟩
          · exact ⟨by rw [hc]; exact ⟨by decide, by decide⟩,
              fun _ => Or.inr hc⟩
      · rw [mem_foldl_append] at h2
        rcases h2 with h | ⟨call, _, hcall⟩
        · exact absurd h (List.not_mem_nil e)
        · obtain ⟨hk, hb⟩ := callEdgesForCall_mem ctx db relPath _ _ _ call e hcall
          exact ⟨hb, fun hne => absurd hk hne⟩
    · rw [mem_foldl_append] at h3
      rcases h3 with h | ⟨cls, _, hcls⟩
      · exact absurd h (List.not_mem_nil e)
      · obtain ⟨hc, _⟩ := classEdgesFor_mem db relPath cls e hcls
        exact ⟨by rw [hc]; exact ⟨by decide, by decide⟩, fun _ => Or.inl hc⟩

theorem buildGraphOn_edges (ctx : BuildCtx) (prev : DB) :
    (buildGraphOn ctx prev).edges = pass2Edges ctx (pass1State ctx prev) := by
  show (pass1State ctx prev).edges ++ _ = _
  rw [pass1State_edges]
  rfl

/-- C7: every edge of a built graph has confidence in [0.3, 1.0]; every
non-`calls` edge has confidence 1.0 except the barrel-derived
indirect import edges, which have confidence 0.9 — so the claim's "every non-calls
edge is exactly 1.0" holds only with that exception. -/
theorem C7_amended (ctx : BuildCtx) (prev : DB) (e : Edge)
    (he : e ∈ (buildGraphOn ctx prev).edges) :
    (mkRat 3 10 ≤ e.confidence ∧ e.confidence ≤ 1)
      ∧ (e.kind ≠ "calls" → e.confidence = 1 ∨ e.confidence = mkRat 9 10) := by
  rw [buildGraphOn_edges] at he
  unfold pass2Edges at he
  rw [mem_foldl_append] at he
  rcases he with h | ⟨fs, _, hfs⟩
  · exact absurd h (List.not_mem_nil e)
  · exact fileEdges_mem ctx (pass1State ctx prev) fs.1 fs.2 e hfs

/-- C7 witness: the amended bound at the 0.9 barrel edge of the barrel
scenario. -/
theorem C7_amended_witness :
    (mkRat 3 10 ≤ (⟨0, 2, "imports", mkRat 9 10, false⟩ : Edge).confidence
        ∧ (⟨0, 2, "imports", mkRat 9 10, false⟩ : Edge).confidence ≤ 1)
      ∧ ((⟨0, 2, "imports", mkRat 9 10, false⟩ : Edge).kind ≠ "calls" →
          (⟨0, 2, "imports", mkRat 9 10, false⟩ : Edge).confidence = 1
            ∨ (⟨0, 2, "imports", mkRat 9 10, false⟩ : Edge).confidence
                = mkRat 9 10) :=
  C7_amended ctxC3 DB.empty ⟨0, 2, "imports", mkRat 9 10, false⟩ (by decide)

theorem any_key (nodes : List Node) (relPath name kind : String) (line : Nat) :
    nodes.any (fun n =>
        n.name = name ∧ n.kind = kind ∧ n.file = relPath ∧ n.line = line)
      = ((nodes.filter (fun n => n.file = relPath)).map nodeKey).any
          (fun k => k.1 = name ∧ k.2.1 = kind ∧ k.2.2.2.1 = line) := by
  induction nodes with
  | nil => rfl
  | cons n rest ih =>
    rw [List.any_cons, List.filter_cons]
    by_cases hf : n.file = relPath
    · rw [if_pos (decide_eq_true hf), List.map_cons, List.any_cons, ih]
      congr 1
      simp [nodeKey, hf]
    · rw [if_neg (by simpa using hf)]
      have hhead : decide (n.name = name ∧ n.kind = kind
          ∧ n.file = relPath ∧ n.line = line) = false := by simp [hf]
      rw [hhead, Bool.false_or, ih]

theorem insertNodeIG_keys (relPath name kind : String) (line : Nat)
    (el : Option Nat) (db1 db2 : DB)
    (h : (db1.nodes.filter (fun n => n.file = relPath)).map nodeKey
        = (db2.nodes.filter (fun n => n.file = relPath)).map nodeKey) :
    ((insertNodeIG db1 name kind relPath line el).nodes.filter
        (fun n => n.file = relPath)).map nodeKey
      = ((insertNodeIG db2 name kind relPath line el).nodes.filter
        (fun n => n.file = relPath)).map nodeKey := by
  have hB : db2.nodes.any (fun n =>
        n.name = name ∧ n.kind = kind ∧ n.file = relPath ∧ n.line = line)
      = db1.nodes.any (fun n =>
        n.name = name ∧ n.kind = kind ∧ n.file = relPath ∧ n.line = line) := by
    rw [any_key, any_key, h]
  unfold insertNodeIG
  by_cases hA : db1.nodes.any (fun n =>
      n.name = name ∧ n.kind = kind ∧ n.file = relPath ∧ n.line = line) = true
  · rw [if_pos hA, if_pos (hB.trans hA)]
    exact h
  · rw [if_neg hA, if_neg (fun hc => hA (hB.symm.trans hc))]
    simp [List.filter_append, h, nodeKey]

theorem defsFold_keys (relPath : String) (defs : List Definition)
    (db1 db2 : DB)
    (h : (db1.nodes.filter (fun n => n.file = relPath)).map nodeKey
        = (db2.nodes.filter (fun n => n.file = relPath)).map nodeKey) :
    (((defs.foldl (fun acc d =>
        insertNodeIG acc d.name d.kind relPath d.line d.endLine) db1).nodes.filter
        (fun n => n.file = relPath)).map nodeKey)
      = (((defs.foldl (fun acc d =>
        insertNodeIG acc d.name d.kind relPath d.line d.endLine) db2).nodes.filter
        (fun n => n.file = relPath)).map nodeKey) := by
  induction defs generalizing db1 db2 with
  | nil => exact h
  | cons d rest ih =>
    rw [List.foldl_cons, List.foldl_cons]
    exact ih _ _ (insertNodeIG_keys relPath d.name d.kind d.line d.endLine db1 db2 h)

theorem expsFold_keys (relPath : String) (exps : List ExportRec)
    (db1 db2 : DB)
    (h : (db1.nodes.filter (fun n => n.file = relPath)).map nodeKey
        = (db2.nodes.filter (fun n => n.file = relPath)).map nodeKey) :
    (((exps.foldl (fun acc e =>
        insertNodeIG acc e.name e.kind relPath e.line Option.none) db1).nodes.filter
        (fun n => n.file = relPath)).map nodeKey)
      = (((exps.foldl (fun acc e =>
        insertNodeIG acc e.name e.kind relPath e.line Option.none) db2).nodes.filter
        (fun n => n.file = relPath)).map nodeKey) := by
  induction exps generalizing db1 db2 with
  | nil => exact h
  | cons x rest ih =>
    rw [List.foldl_cons, List.foldl_cons]
    exact ih _ _ (insertNodeIG_keys relPath x.name x.kind x.line Option.none db1 db2 h)

theorem insertFileNodes_keys (relPath : String) (symbols : Symbols)
    (db1 db2 : DB)
    (h : (db1.nodes.filter (fun n => n.file = relPath)).map nodeKey
        = (db2.nodes.filter (fun n => n.file = relPath)).map nodeKey) :
    ((insertFileNodes db1 relPath symbols).nodes.filter
        (fun n => n.file = relPath)).map nodeKey
      = ((insertFileNodes db2 relPath symbols).nodes.filter
        (fun n => n.file = relPath)).map nodeKey := by
  unfold insertFileNodes
  exact expsFold_keys relPath symbols.exports _ _
    (defsFold_keys relPath symbols.definitions _ _
      (insertNodeIG_keys relPath relPath "file" 0 Option.none db1 db2 h))

theorem deleteFileData_no_file (db : DB) (relPath : String) :
    (deleteFileData db relPath).nodes.filter (fun n => n.file = relPath) = [] := by
  unfold deleteFileData
  induction db.nodes with
  | nil => rfl
  | cons n rest ih =>
    by_cases hf : n.file = relPath <;> simp only [List.filter_cons, hf] <;>
      simp [hf, ih]

theorem updateFile_nodes (fsx : String → Bool) (rootDir relPath : String)
    (symbols : Symbols) (db : DB) :
    (updateFile fsx rootDir relPath symbols db).nodes
      = (insertFileNodes (deleteFileData db relPath) relPath symbols).nodes := by
  unfold updateFile
  cases hm : getNodeId?
      (insertFileNodes (deleteFileData db relPath) relPath symbols)
      relPath "file" relPath 0 with
  | none => simp only [hm]
  | some row => simp only [hm]

/-- C9: the amended incremental-update property.  (a) `delete(f) then
reparse(f)` re-creates exactly the node tuples `(name, kind, file, line,
end_line)` that a full rebuild of the one-file workspace produces for `f`,
independent of whatever else the store holds.  (b) Every edge the update
adds has confidence 1.0 (import edges, and call edges whose name
was imported) or 0.5 (all other call edges) — not the rebuild's proximity
scoring, which the counterexample shows can differ. -/
theorem C9_amended :
    (∀ (fsx : String → Bool) (rootDir relPath : String) (symbols : Symbols)
        (db : DB) (aliases : Aliases),
        ((updateFile fsx rootDir relPath symbols db).nodes.filter
            (fun n => n.file = relPath)).map nodeKey
          = ((buildGraphOn ⟨rootDir, fsx, aliases, [(relPath, symbols)]⟩
              DB.empty).nodes.filter (fun n => n.file = relPath)).map nodeKey)
    ∧ (∀ (fsx : String → Bool) (rootDir relPath : String) (symbols : Symbols)
        (db : DB) (e : Edge),
        e ∈ (updateFile fsx rootDir relPath symbols db).edges →
        e ∉ (deleteFileData db relPath).edges →
        e.confidence = 1 ∨ e.confidence = mkRat 1 2) := by
  constructor
  · intro fsx rootDir relPath symbols db aliases
    rw [updateFile_nodes]
    have hrhs : (buildGraphOn ⟨rootDir, fsx, aliases, [(relPath, symbols)]⟩
        DB.empty).nodes = (insertFileNodes DB.empty relPath symbols).nodes := rfl
    rw [hrhs]
    exact insertFileNodes_keys relPath symbols
      (deleteFileData db relPath) DB.empty
      (by rw [deleteFileData_no_file]; rfl)
  · intro fsx rootDir relPath symbols db e he hne
    simp only [updateFile] at he
    cases hm : getNodeId?
        (insertFileNodes (deleteFileData db relPath) relPath symbols)
        relPath "file" relPath 0 with
    | none =>
      simp only [hm] at he
      rw [insertFileNodes_edges] at he
      exact absurd he hne
    | some row =>
      simp only [hm] at he
      rw [insertFileNodes_edges] at he
      rcases List.mem_append.mp he with h12 | hc
      · rcases List.mem_append.mp h12 with h0 | hi
        · exact absurd h0 hne
        · rw [mem_foldl_append] at hi
          rcases hi with h | ⟨imp, _, himp⟩
          · exact absurd h (List.not_mem_nil e)
          · unfold updateImportEdges at himp
            split at himp
            · rcases List.mem_singleton.mp himp with rfl
              exact Or.inl rfl
            · exact absurd himp (List.not_mem_nil e)
      · rw [mem_foldl_append] at hc
        rcases hc with h | ⟨call, _, hcall⟩
        · exact absurd h (List.not_mem_nil e)
        · unfold updateCallEdges at hcall
          rw [List.mem_filterMap] at hcall
          obtain ⟨t, _, hft⟩ := hcall
          split at hft
          · rcases Option.some_inj.mp hft with rfl
            by_cases hs : (mapGet (updateImportedNames fsx rootDir relPath
                symbols.imports) call.name).isSome
            · rw [if_pos hs]
              exact Or.inl rfl
            · rw [if_neg hs]
              exact Or.inr rfl
          · exact absurd hft (by simp)

/-- C9 witness: the amended property at the single-file scenario — node
tuples agree with the rebuild, and the delta's one new edge has confidence
0.5. -/
theorem C9_amended_witness :
    ((updateFile fsC9 "/ws" "a.ts" symsC9 (buildGraph ctxC9)).nodes.filter
        (fun n => n.file = "a.ts")).map nodeKey
      = ((buildGraphOn ⟨"/ws", fsC9, Aliases.none, [("a.ts", symsC9)]⟩
          DB.empty).nodes.filter (fun n => n.file = "a.ts")).map nodeKey
    ∧ ((⟨5, 4, "calls", mkRat 1 2, false⟩ : Edge).confidence = 1
        ∨ (⟨5, 4, "calls", mkRat 1 2, false⟩ : Edge).confidence = mkRat 1 2) :=
  ⟨C9_amended.1 fsC9 "/ws" "a.ts" symsC9 (buildGraph ctxC9) Aliases.none,
    C9_amended.2 fsC9 "/ws" "a.ts" symsC9 (buildGraph ctxC9)
      ⟨5, 4, "calls", mkRat 1 2, false⟩ (by decide) (by decide)⟩

theorem parentsOf_subset_targetsAll (edges : List Edge) (c : Nat) :
    ∀ x ∈ parentsOf edges c, x ∈ targetsAll edges := by
  intro x hx
  unfold parentsOf at hx
  unfold targetsAll
  rw [List.mem_map] at hx ⊢
  obtain ⟨e, he, rfl⟩ := hx
  refine ⟨e, List.mem_filter.mpr ⟨(List.mem_filter.mp he).1, ?_⟩, rfl⟩
  have := (List.mem_filter.mp he).2
  simp only [decide_eq_true_eq] at this
  simp [this.2]

theorem targetsAll_length_le (edges : List Edge) :
    (targetsAll edges).length ≤ edges.length := by
  unfold targetsAll
  rw [List.length_map]
  exact edges.length_filter_le _

theorem hierStep_cons (p : Nat) (rest anc queue : List Nat) :
    hierStep (p :: rest) anc queue
      = if p ∈ anc then hierStep rest anc queue
        else hierStep rest (anc ++ [p]) (queue ++ [p]) := by
  unfold hierStep
  rw [List.foldl_cons]
  by_cases hp : p ∈ anc
  · rw [if_pos hp, if_pos hp]
  · rw [if_neg hp, if_neg hp]

theorem hierStep_spec (parents : List Nat) :
    ∀ (anc queue : List Nat), ∃ ns : List Nat,
      (hierStep parents anc queue).1 = anc ++ ns
      ∧ (hierStep parents anc queue).2 = queue ++ ns
      ∧ ns.Nodup
      ∧ (∀ x ∈ ns, x ∈ parents ∧ x ∉ anc)
      ∧ (∀ p ∈ parents, p ∈ (hierStep parents anc queue).1) := by
  induction parents with
  | nil =>
    intro anc queue
    exact ⟨[], by simp [hierStep], by simp [hierStep], List.nodup_nil,
      by simp, by simp⟩
  | cons p rest ih =>
    intro anc queue
    by_cases hp : p ∈ anc
    · obtain ⟨ns, h1, h2, hnd, hmem, hpar⟩ := ih anc queue
      refine ⟨ns, ?_, ?_, hnd, ?_, ?_⟩
      · rw [hierStep_cons, if_pos hp]; exact h1
      · rw [hierStep_cons, if_pos hp]; exact h2
      · exact fun x hx => ⟨List.mem_cons_of_mem p (hmem x hx).1, (hmem x hx).2⟩
      · intro q hq
        rw [hierStep_cons, if_pos hp]
        rcases List.mem_cons.mp hq with rfl | hq2
        · rw [h1]; exact List.mem_append_left ns hp
        · exact hpar q hq2
    · obtain ⟨ns, h1, h2, hnd, hmem, hpar⟩ := ih (anc ++ [p]) (queue ++ [p])
      refine ⟨p :: ns, ?_, ?_, ?_, ?_, ?_⟩
      · rw [hierStep_cons, if_neg hp, h1, List.append_assoc]; rfl
      · rw [hierStep_cons, if_neg hp, h2, List.append_assoc]; rfl
      · refine List.nodup_cons.mpr ⟨fun hc => ?_, hnd⟩
        exact (hmem p hc).2 (List.mem_append_right anc (List.mem_singleton.mpr rfl))
      · intro x hx
        rcases List.mem_cons.mp hx with rfl | hx2
        · exact ⟨List.mem_cons_self x rest, hp⟩
        · refine ⟨List.mem_cons_of_mem p (hmem x hx2).1, fun hc => ?_⟩
          exact (hmem x hx2).2 (List.mem_append_left [p] hc)
      · intro q hq
        rw [hierStep_cons, if_neg hp]
        rcases List.mem_cons.mp hq with rfl | hq2
        · rw [h1]
          exact List.mem_append_left ns
            (List.mem_append_right anc (List.mem_singleton.mpr rfl))
        · exact hpar q hq2

theorem hierFuel_fuel_mono (edges : List Edge) :
    ∀ (fuel : Nat) (anc q : List Nat),
    anc.Nodup → (∀ x ∈ anc, x ∈ targetsAll edges) →
    q.length + ((targetsAll edges).length - anc.length) ≤ fuel →
    hierFuel edges fuel anc q = hierFuel edges (fuel + 1) anc q := by
  intro fuel
  induction fuel with
  | zero =>
    intro anc q _ _ hle
    cases q with
    | nil => rfl
    | cons c rest => simp at hle
  | succ f ih =>
    intro anc q hnd hsub hle
    cases q with
    | nil => rfl
    | cons c rest =>
      show hierFuel edges f (hierStep (parentsOf edges c) anc rest).1
          (hierStep (parentsOf edges c) anc rest).2
        = hierFuel edges (f + 1) (hierStep (parentsOf edges c) anc rest).1
          (hierStep (parentsOf edges c) anc rest).2
      obtain ⟨ns, h1, h2, hnd', hmem, _⟩ := hierStep_spec (parentsOf edges c) anc rest
      have hnd2 : (anc ++ ns).Nodup := by
        rw [List.nodup_append]
        exact ⟨hnd, hnd', fun a ha hb => (hmem a hb).2 ha⟩
      have hsub2 : ∀ x ∈ anc ++ ns, x ∈ targetsAll edges := by
        intro x hx
        rcases List.mem_append.mp hx with h | h
        · exact hsub x h
        · exact parentsOf_subset_targetsAll edges c x (hmem x h).1
      have hcard : (anc ++ ns).length ≤ (targetsAll edges).length :=
        (List.subperm_of_subset hnd2 hsub2).length_le
      apply ih
      · rw [h1]; exact hnd2
      · rw [h1]; exact hsub2
      · rw [h1, h2]
        rw [List.length_append, List.length_append] at *
        simp only [List.length_cons] at hle
        omega

theorem hierFuel_sound (edges : List Edge) (s : Nat) :
    ∀ (fuel : Nat) (anc q : List Nat),
    (∀ a ∈ anc, Reaches edges s a) →
    (∀ x ∈ q, x = s ∨ Reaches edges s x) →
    ∀ v ∈ hierFuel edges fuel anc q, Reaches edges s v := by
  intro fuel
  induction fuel with
  | zero => intro anc q ha _ v hv; exact ha v hv
  | succ f ih =>
    intro anc q ha hq v hv
    cases q with
    | nil => exact ha v hv
    | cons c rest =>
      obtain ⟨ns, h1, h2, _, hmem, _⟩ := hierStep_spec (parentsOf edges c) anc rest
      have hreach : ∀ x ∈ ns, Reaches edges s x := by
        intro x hx
        rcases hq c (List.mem_cons_self c rest) with rfl | hrc
        · exact Reaches.base (hmem x hx).1
        · exact Reaches.step hrc (hmem x hx).1
      refine ih (hierStep (parentsOf edges c) anc rest).1
        (hierStep (parentsOf edges c) anc rest).2 ?_ ?_ v hv
      · rw [h1]
        intro a hamem
        rcases List.mem_append.mp hamem with h | h
        · exact ha a h
        · exact hreach a h
      · rw [h2]
        intro x hx
        rcases List.mem_append.mp hx with h | h
        · exact hq x (List.mem_cons_of_mem c h)
        · exact Or.inr (hreach x h)

theorem hierFuel_nodup (edges : List Edge) :
    ∀ (fuel : Nat) (anc q : List Nat), anc.Nodup →
    (hierFuel edges fuel anc q).Nodup := by
  intro fuel
  induction fuel with
  | zero => intro anc q h; exact h
  | succ f ih =>
    intro anc q hnd
    cases q with
    | nil => exact hnd
    | cons c rest =>
      obtain ⟨ns, h1, _, hnd', hmem, _⟩ := hierStep_spec (parentsOf edges c) anc rest
      refine ih _ _ ?_
      rw [h1, List.nodup_append]
      exact ⟨hnd, hnd', fun a ha hb => (hmem a hb).2 ha⟩

theorem hierFuel_grow (edges : List Edge) :
    ∀ (fuel : Nat) (anc q : List Nat) (v : Nat), v ∈ anc →
    v ∈ hierFuel edges fuel anc q := by
  intro fuel
  induction fuel with
  | zero => intro anc q v hv; exact hv
  | succ f ih =>
    intro anc q v hv
    cases q with
    | nil => exact hv
    | cons c rest =>
      obtain ⟨ns, h1, _, _, _, _⟩ := hierStep_spec (parentsOf edges c) anc rest
      exact ih _ _ v (h1 ▸ List.mem_append_left ns hv)

theorem hierFuel_closed (edges : List Edge) (s : Nat) :
    ∀ (fuel : Nat) (anc q : List Nat),
    anc.Nodup → (∀ x ∈ anc, x ∈ targetsAll edges) →
    q.length + ((targetsAll edges).length - anc.length) ≤ fuel →
    (∀ x ∈ q, x = s ∨ x ∈ anc) →
    (∀ u, (u = s ∨ u ∈ anc) → u ∉ q → ∀ t ∈ parentsOf edges u, t ∈ anc) →
    ∀ u, (u = s ∨ u ∈ hierFuel edges fuel anc q) →
      ∀ t ∈ parentsOf edges u, t ∈ hierFuel edges fuel anc q := by
  intro fuel
  induction fuel with
  | zero =>
    intro anc q _ _ hle _ hclosed u hu t ht
    cases q with
    | nil => exact hclosed u hu (List.not_mem_nil u) t ht
    | cons c rest => simp at hle
  | succ f ih =>
    intro anc q hnd hsub hle hjust hclosed u hu t ht
    cases q with
    | nil => exact hclosed u hu (List.not_mem_nil u) t ht
    | cons c rest =>
      obtain ⟨ns, h1, h2, hnd', hmem, hpar⟩ :=
        hierStep_spec (parentsOf edges c) anc rest
      have hnd2 : (hierStep (parentsOf edges c) anc rest).1.Nodup := by
        rw [h1, List.nodup_append]
        exact ⟨hnd, hnd', fun a ha hb => (hmem a hb).2 ha⟩
      have hsub2 : ∀ x ∈ (hierStep (parentsOf edges c) anc rest).1,
          x ∈ targetsAll edges := by
        rw [h1]
        intro x hx
        rcases List.mem_append.mp hx with h | h
        · exact hsub x h
        · exact parentsOf_subset_targetsAll edges c x (hmem x h).1
      have hcard : (anc ++ ns).length ≤ (targetsAll edges).length :=
        (List.subperm_of_subset (h1 ▸ hnd2) (h1 ▸ hsub2)).length_le
      refine ih (hierStep (parentsOf edges c) anc rest).1
        (hierStep (parentsOf edges c) anc rest).2 hnd2 hsub2 ?_ ?_ ?_ u hu t ht
      · rw [h1, h2]
        rw [List.length_append, List.length_append] at *
        simp only [List.length_cons] at hle
        omega
      · rw [h1, h2]
        intro x hx
        rcases List.mem_append.mp hx with h | h
        · rcases hjust x (List.mem_cons_of_mem c h) with rfl | h3
          · exact Or.inl rfl
          · exact Or.inr (List.mem_append_left ns h3)
        · exact Or.inr (List.mem_append_right anc h)
      · intro w hw hnq t2 ht2
        have hwns : w ∉ ns := by
          intro hwns
          exact hnq (h2 ▸ List.mem_append_right rest hwns)
        have hw2 : w = s ∨ w ∈ anc := by
          rcases hw with rfl | hwin
          · exact Or.inl rfl
          · rw [h1] at hwin
            rcases List.mem_append.mp hwin with h | h
            · exact Or.inr h
            · exact absurd h hwns
        by_cases hwc : w = c
        · subst hwc
          exact hpar t2 ht2
        · have hwrest : w ∉ rest := by
            intro hwr
            exact hnq (h2 ▸ List.mem_append_left ns hwr)
          have : t2 ∈ anc := hclosed w hw2
            (fun hc => (List.mem_cons.mp hc).elim hwc hwrest) t2 ht2
          rw [h1]
          exact List.mem_append_left ns this

/-- C10: on any finite edge list — extends-cycles included — the
class-hierarchy BFS terminates (any fuel beyond `edges.length + 1` gives
the same answer), returns exactly the ids reachable from the start through
one or more `extends` edges, and its visited list has no duplicates (each
node enters the ancestor set at most once). -/
theorem C10_hierarchy (edges : List Edge) (s : Nat) :
    (∀ extra : Nat, hierFuel edges (edges.length + 1 + extra) [] [s]
        = getClassHierarchy edges s)
    ∧ (∀ v, v ∈ getClassHierarchy edges s ↔ Reaches edges s v)
    ∧ (getClassHierarchy edges s).Nodup := by
  have hbound : ∀ k : Nat, [s].length
      + ((targetsAll edges).length - ([] : List Nat).length)
      ≤ edges.length + 1 + k := by
    intro k
    have := targetsAll_length_le edges
    simp only [List.length_singleton, List.length_nil, Nat.sub_zero]
    omega
  refine ⟨?_, ?_, ?_⟩
  · intro extra
    induction extra with
    | zero => rfl
    | succ k ihk =>
      have hm := hierFuel_fuel_mono edges (edges.length + 1 + k) [] [s]
        List.nodup_nil (by simp) (hbound k)
      calc hierFuel edges (edges.length + 1 + (k + 1)) [] [s]
          = hierFuel edges ((edges.length + 1 + k) + 1) [] [s] := rfl
        _ = hierFuel edges (edges.length + 1 + k) [] [s] := hm.symm
        _ = getClassHierarchy edges s := ihk
  · intro v
    constructor
    · intro hv
      refine hierFuel_sound edges s (edges.length + 1) [] [s] (by simp) ?_ v hv
      intro x hx
      rcases List.mem_singleton.mp hx with rfl
      exact Or.inl rfl
    · intro hr
      have hclosure := hierFuel_closed edges s (edges.length + 1) [] [s]
        List.nodup_nil (by simp) (hbound 0) ?_ ?_
      · induction hr with
        | base ht => exact hclosure s (Or.inl rfl) _ ht
        | step hru ht ihu => exact hclosure _ (Or.inr ihu) _ ht
      · intro x hx
        rcases List.mem_singleton.mp hx with rfl
        exact Or.inl rfl
      · intro u hu hnq t ht
        rcases hu with rfl | habs
        · exact absurd (List.mem_singleton.mpr rfl) hnq
        · exact absurd habs (List.not_mem_nil u)
  · exact hierFuel_nodup edges (edges.length + 1) [] [s] List.nodup_nil

/-- C10 witness: on the two-node `extends` cycle 1 → 2 → 1 the traversal
returns `[2, 1]` (both reachable ids, each visited once), extra fuel does
not change the result, and the reachability equivalence holds at `v = 2`. -/
theorem C10_hierarchy_witness :
    getClassHierarchy
        [⟨1, 2, "extends", 1, false⟩, ⟨2, 1, "extends", 1, false⟩] 1 = [2, 1]
      ∧ hierFuel [⟨1, 2, "extends", 1, false⟩, ⟨2, 1, "extends", 1, false⟩]
          (2 + 1 + 5) [] [1]
          = getClassHierarchy
            [⟨1, 2, "extends", 1, false⟩, ⟨2, 1, "extends", 1, false⟩] 1
      ∧ (2 ∈ getClassHierarchy
            [⟨1, 2, "extends", 1, false⟩, ⟨2, 1, "extends", 1, false⟩] 1
          ↔ Reaches [⟨1, 2, "extends", 1, false⟩, ⟨2, 1, "extends", 1, false⟩] 1 2)
      ∧ (getClassHierarchy
          [⟨1, 2, "extends", 1, false⟩, ⟨2, 1, "extends", 1, false⟩] 1).Nodup :=
  ⟨by decide,
    (C10_hierarchy [⟨1, 2, "extends", 1, false⟩, ⟨2, 1, "extends", 1, false⟩] 1).1 5,
    (C10_hierarchy [⟨1, 2, "extends", 1, false⟩, ⟨2, 1, "extends", 1, false⟩] 1).2.1 2,
    (C10_hierarchy [⟨1, 2, "extends", 1, false⟩, ⟨2, 1, "extends", 1, false⟩] 1).2.2⟩

end Codegraph
